import Mathlib

/-!
# PerfectHashSet (FKS two-level perfect hashing)

A shallow embedding of `perfecthashset.cpp` and a verification of its
behaviour.

Conventions of the embedding:

* `ui32` and `size_t` values are natural numbers; every place where the C++
  code can wrap or truncate carries an explicit `% 2 ^ 32` or `% 2 ^ 64`.
* `std::vector` is `List`; `operator[]` outside the vector, a remainder
  modulo `0` and a loop counter that overflows are undefined behaviour in
  C++ and are reported as `Result.undefinedBehaviour`, or `none` for the
  `const` queries.
* A member function that changes the object maps the object before the call
  to a `Result`; the exception constructors carry the object as the `throw`
  leaves it.
* The global `generator` is the list of the sample pairs it will deliver:
  one pair `(a, b)` for each call of `makeRandomHash`, `a` being what
  `all_ui_without_0(generator)` returns and `b` what `all_ui(generator)`
  returns.  The two `while (true)` loops take one pair per iteration, so the
  list also bounds the number of iterations; a loop that has used up the list
  without leaving reports `Result.samplesExhausted`.
-/

namespace PerfectHashSet

/-- The constant `modulo`, `4294967311LLU`. -/
def modulo : Nat := 4294967311

/-- The samples the global `generator` still has to deliver, one pair per
call of `makeRandomHash`. -/
abbrev Generator := List (Nat × Nat)

/-- A sample pair lies in the ranges of the two distributions:
`all_ui_without_0` is uniform on `[1, modulo - 1]`, `all_ui` on
`[0, modulo - 1]`. -/
def inRange (smp : Nat × Nat) : Prop :=
  1 ≤ smp.1 ∧ smp.1 ≤ modulo - 1 ∧ smp.2 ≤ modulo - 1

instance (smp : Nat × Nat) : Decidable (inRange smp) := by
  unfold inRange; infer_instance

/-- The struct `UniversalHash` with its three `ui32` fields. -/
structure UniversalHash where
  a : Nat
  b : Nat
  p : Nat
  deriving DecidableEq

/-- `UniversalHash::calculate`:
`(((unsigned long long)a * value + b) % modulo) % p`, converted to `ui32`.
The sum is formed in 64 bits; a remainder modulo `p = 0` is undefined. -/
def UniversalHash.calculate (h : UniversalHash) (value : Nat) : Option Nat :=
  if h.p = 0 then none
  else some ((((h.a * value + h.b) % 2 ^ 64) % modulo) % h.p % 2 ^ 32)

/-- `makeRandomHash(real_modulo)`: the two samples are `long long` values
stored into `ui32` fields, and the argument is converted to the `ui32`
parameter. -/
def makeRandomHash (smp : Nat × Nat) (real_modulo : Nat) : UniversalHash :=
  { a := smp.1 % 2 ^ 32, b := smp.2 % 2 ^ 32, p := real_modulo % 2 ^ 32 }

/-- What a call yields: it returns, it throws one of the two exception
classes, it runs into undefined behaviour, or (for the construction loops) it
still loops when the samples are used up. A return carries the state the call
leaves behind, a thrown exception the state at the `throw`. -/
inductive Result (α : Type) where
  | ok (value : α)
  | multipleKeyException (state : α)
  | impossibleKeyException (state : α)
  | undefinedBehaviour
  | samplesExhausted
  deriving DecidableEq

end PerfectHashSet

/-- The data members of `class PerfectHashSet`. -/
structure PerfectHashSet where
  first_universal_hash : PerfectHashSet.UniversalHash
  second_universal_hashes : List PerfectHashSet.UniversalHash
  keys_count : Nat
  inserted_count : Nat
  hashes : List (List Nat)
  inserted : List (List Bool)
  deriving DecidableEq

namespace PerfectHashSet

/-- `isGoodFirstHash`: `summary` is a `ui32`, each product is formed in
`size_t` and the sum is cut back to 32 bits; `3 * keys_count` is a `ui32`
product. -/
def isGoodFirstHash (s : PerfectHashSet) : Bool :=
  let summary := (List.range s.keys_count).foldl
    (fun summary i =>
      (summary + ((s.hashes.getD i []).length * (s.hashes.getD i []).length) % 2 ^ 64)
        % 2 ^ 64 % 2 ^ 32) 0
  decide (summary ≤ (3 * s.keys_count) % 2 ^ 32)

/-- The loop `for (j = 1; j < size; j++) if (b[j - 1] == b[j]) return true`
of `hasNaiveCollisions`. -/
def adjacentEqual : List Nat → Bool
  | x :: y :: rest => x == y || adjacentEqual (y :: rest)
  | _ => false

/-- The body of the outer loop of `hasNaiveCollisions` for one bucket: all
three pairs when the bucket has exactly three keys, neighbours only
otherwise. -/
def bucketCollision (bucket : List Nat) : Bool :=
  match bucket with
  | [x, y, z] => x == y || x == z || y == z
  | _ => adjacentEqual bucket

/-- `hasNaiveCollisions`. -/
def hasNaiveCollisions (s : PerfectHashSet) : Bool :=
  (List.range s.keys_count).any (fun i => bucketCollision (s.hashes.getD i []))

/-- The loop `for (i = 0; i < keys.size(); i++)
hashes[first_universal_hash.calculate(keys[i])].push_back(keys[i])`. -/
def pushKeys (h : UniversalHash) : List Nat → List (List Nat) → Option (List (List Nat))
  | [], hs => some hs
  | key :: keys, hs =>
    match h.calculate key with
    | none => none
    | some index =>
      match hs[index]? with
      | none => none
      | some bucket => pushKeys h keys (hs.set index (bucket ++ [key]))

/-- The loop `for (i = 0; i < keys_count; i++) hashes[i].clear()`. -/
def clearBuckets (keys_count : Nat) (hs : List (List Nat)) : Option (List (List Nat)) :=
  (List.range keys_count).foldl
    (fun acc i =>
      match acc with
      | none => none
      | some hs => if i < hs.length then some (hs.set i []) else none)
    (some hs)

/-- The `while (true)` loop of `initFirstTable`, one sample pair per
iteration. -/
def firstTableLoop (keys : List Nat) : Generator → PerfectHashSet →
    Result (PerfectHashSet × Generator)
  | [], _ => .samplesExhausted
  | smp :: g, s =>
    match clearBuckets s.keys_count s.hashes with
    | none => .undefinedBehaviour
    | some cleared =>
      let h := makeRandomHash smp s.keys_count
      match pushKeys h keys cleared with
      | none => .undefinedBehaviour
      | some hs =>
        let s1 := { s with first_universal_hash := h, hashes := hs }
        if hasNaiveCollisions s1 then .multipleKeyException (s1, g)
        else if isGoodFirstHash s1 then .ok (s1, g)
        else firstTableLoop keys g s1

/-- `initFirstTable`. -/
def initFirstTable (keys : List Nat) (g : Generator) (s : PerfectHashSet) :
    Result (PerfectHashSet × Generator) :=
  firstTableLoop keys g { s with inserted := List.replicate s.keys_count [] }

/-- The duplicate check of `initTable`:
`for i, for j = i + 1 .. : if (elements[i] == elements[j]) throw`; the head of
the list is `elements[i]`, its tail the `elements[j]` with `j > i`. -/
def hasEqualPair : List Nat → Bool
  | [] => false
  | x :: rest => rest.any (fun y => x == y) || hasEqualPair rest

/-- The inner `for` loop of the `while (true)` loop of `initTable`: `some true`
when `good_hash` stays true, `some false` when a slot is met twice. -/
def tryHash (h : UniversalHash) : List Nat → List Bool → Option Bool
  | [], _ => some true
  | e :: elements, used =>
    match h.calculate e with
    | none => none
    | some current_hash =>
      match used[current_hash]? with
      | none => none
      | some true => some false
      | some false => tryHash h elements (used.set current_hash true)

/-- The last loop of `initTable`:
`hashes[index][second_universal_hashes[index].calculate(elements[i])] = elements[i]`. -/
def fillTable (h : UniversalHash) : List Nat → List Nat → Option (List Nat)
  | [], table => some table
  | e :: elements, table =>
    match h.calculate e with
    | none => none
    | some slot => if slot < table.length then fillTable h elements (table.set slot e) else none

/-- The `while (true)` loop of `initTable` followed by the loop that fills
the slot table. `size` is `elements.size() * elements.size()`. -/
def secondTableLoop (index : Nat) (elements : List Nat) (size : Nat) :
    Generator → PerfectHashSet → Result (PerfectHashSet × Generator)
  | [], _ => .samplesExhausted
  | smp :: g, s =>
    let h := makeRandomHash smp size
    let s1 := { s with second_universal_hashes := s.second_universal_hashes.set index h }
    match tryHash h elements (List.replicate size false) with
    | none => .undefinedBehaviour
    | some false => secondTableLoop index elements size g s1
    | some true =>
      match fillTable h elements (s1.hashes.getD index []) with
      | none => .undefinedBehaviour
      | some table => .ok ({ s1 with hashes := s1.hashes.set index table }, g)

/-- `initTable(index)`. Indexing `hashes`, `inserted` or
`second_universal_hashes` with an `index` outside the vector is undefined;
`second_universal_hashes[index]` is first touched after the duplicate check. -/
def initTable (index : Nat) (g : Generator) (s : PerfectHashSet) :
    Result (PerfectHashSet × Generator) :=
  match s.hashes[index]? with
  | none => .undefinedBehaviour
  | some elements =>
    if index < s.inserted.length then
      let size := (elements.length * elements.length) % 2 ^ 64
      let s1 := { s with
        inserted := s.inserted.set index (List.replicate size false),
        hashes := s.hashes.set index (List.replicate size 0) }
      if hasEqualPair elements then .multipleKeyException (s1, g)
      else if index < s.second_universal_hashes.length then
        secondTableLoop index elements size g s1
      else .undefinedBehaviour
    else .undefinedBehaviour

/-- The loop of `initSecondTables` over the indices still to do. -/
def secondTablesLoop : List Nat → Generator → PerfectHashSet →
    Result (PerfectHashSet × Generator)
  | [], g, s => .ok (s, g)
  | i :: rest, g, s =>
    match initTable i g s with
    | .ok (s1, g1) => secondTablesLoop rest g1 s1
    | .multipleKeyException state => .multipleKeyException state
    | .impossibleKeyException state => .impossibleKeyException state
    | .undefinedBehaviour => .undefinedBehaviour
    | .samplesExhausted => .samplesExhausted

/-- `initSecondTables`. -/
def initSecondTables (g : Generator) (s : PerfectHashSet) :
    Result (PerfectHashSet × Generator) :=
  secondTablesLoop (List.range s.keys_count) g s

/-- The constructor sets `inserted_count = 0` and leaves the vectors empty;
`first_universal_hash` and `keys_count` are not initialised, so their
indeterminate values are parameters. -/
def construct (h0 : UniversalHash) (kc : Nat) : PerfectHashSet :=
  { first_universal_hash := h0, second_universal_hashes := [], keys_count := kc,
    inserted_count := 0, hashes := [], inserted := [] }

/-- `init(keys)`. With `2 ^ 31` keys or more the `int` counters of the loops
over `keys_count` overflow, and with `2 ^ 32` or more the `ui32` counter of the
loop over `keys` can never reach `keys.size()`: no defined run returns. -/
def init (g : Generator) (keys : List Nat) (s : PerfectHashSet) :
    Result (PerfectHashSet × Generator) :=
  if 2 ^ 31 ≤ keys.length then .undefinedBehaviour
  else
    let keys_count := keys.length % 2 ^ 32
    let s1 := { s with
      keys_count := keys_count,
      hashes := List.replicate keys_count [],
      second_universal_hashes := List.replicate keys_count ⟨0, 0, 0⟩ }
    match initFirstTable keys g s1 with
    | .ok (s2, g2) => initSecondTables g2 s2
    | .multipleKeyException state => .multipleKeyException state
    | .impossibleKeyException state => .impossibleKeyException state
    | .undefinedBehaviour => .undefinedBehaviour
    | .samplesExhausted => .samplesExhausted

/-- `isPossibleKey(key)`; `none` when the call is undefined. -/
def isPossibleKey (s : PerfectHashSet) (key : Nat) : Option Bool :=
  match s.first_universal_hash.calculate key with
  | none => none
  | some index =>
    match s.hashes[index]? with
    | none => none
    | some table =>
      if table.isEmpty then some false
      else
        match s.second_universal_hashes[index]? with
        | none => none
        | some h2 =>
          match h2.calculate key with
          | none => none
          | some slot =>
            match table[slot]? with
            | none => none
            | some stored => some (stored == key)

/-- The element `inserted[index][second_universal_hashes[index].calculate(key)]`
that `has`, `insert` and `erase` read. -/
def flagAt (s : PerfectHashSet) (index key : Nat) : Option Bool :=
  match s.second_universal_hashes[index]? with
  | none => none
  | some h2 =>
    match h2.calculate key with
    | none => none
    | some current_hash =>
      match s.inserted[index]? with
      | none => none
      | some flags => flags[current_hash]?

/-- `has(key)`; the right operand of `&&` is only evaluated when
`isPossibleKey(key)` is true. -/
def has (s : PerfectHashSet) (key : Nat) : Option Bool :=
  match s.first_universal_hash.calculate key with
  | none => none
  | some index =>
    match isPossibleKey s key with
    | none => none
    | some false => some false
    | some true => flagAt s index key

/-- The assignment `inserted[index][current_hash] = value`. -/
def setFlag (s : PerfectHashSet) (index current_hash : Nat) (value : Bool) :
    List (List Bool) :=
  s.inserted.set index ((s.inserted.getD index []).set current_hash value)

/-- `insert(key)`. -/
def insert (s : PerfectHashSet) (key : Nat) : Result PerfectHashSet :=
  match isPossibleKey s key with
  | none => .undefinedBehaviour
  | some false => .impossibleKeyException s
  | some true =>
    match s.first_universal_hash.calculate key with
    | none => .undefinedBehaviour
    | some index =>
      match s.second_universal_hashes[index]? with
      | none => .undefinedBehaviour
      | some h2 =>
        match h2.calculate key with
        | none => .undefinedBehaviour
        | some current_hash =>
          match flagAt s index key with
          | none => .undefinedBehaviour
          | some true => .ok s
          | some false =>
            .ok { s with
              inserted := setFlag s index current_hash true,
              inserted_count := (s.inserted_count + 1) % 2 ^ 32 }

/-- `erase(key)`. -/
def erase (s : PerfectHashSet) (key : Nat) : Result PerfectHashSet :=
  match isPossibleKey s key with
  | none => .undefinedBehaviour
  | some false => .impossibleKeyException s
  | some true =>
    match s.first_universal_hash.calculate key with
    | none => .undefinedBehaviour
    | some index =>
      match s.second_universal_hashes[index]? with
      | none => .undefinedBehaviour
      | some h2 =>
        match h2.calculate key with
        | none => .undefinedBehaviour
        | some current_hash =>
          match flagAt s index key with
          | none => .undefinedBehaviour
          | some false => .ok s
          | some true =>
            .ok { s with
              inserted := setFlag s index current_hash false,
              inserted_count := (s.inserted_count + 2 ^ 32 - 1) % 2 ^ 32 }

/-- `size()`. -/
def size (s : PerfectHashSet) : Nat := s.inserted_count

/-! ## Definitions used to state and prove the properties -/

/-- The keys of `keys` that the hash `h` sends to bucket `i`, in input order. -/
def bucketOf (h : UniversalHash) (keys : List Nat) (i : Nat) : List Nat :=
  keys.filter (fun k => decide (h.calculate k = some i))

/-- The value of `summary` at the end of the loop of `isGoodFirstHash`, the
loop running over the buckets themselves. -/
def summaryOf (hs : List (List Nat)) : Nat :=
  hs.foldl (fun summary b => (summary + (b.length * b.length) % 2 ^ 64) % 2 ^ 64 % 2 ^ 32) 0

/-- What one run of the loop of `initFirstTable` that leaves through `break`
has done to the object. -/
def FirstDone (keys : List Nat) (s s' : PerfectHashSet) : Prop :=
  s'.keys_count = s.keys_count ∧ s'.inserted = s.inserted ∧
  s'.inserted_count = s.inserted_count ∧
  s'.second_universal_hashes = s.second_universal_hashes ∧
  s'.first_universal_hash.p = s.keys_count % 2 ^ 32 ∧
  s'.hashes.length = s.keys_count ∧
  (∀ i, i < s.keys_count → s'.hashes[i]? = some (bucketOf s'.first_universal_hash keys i)) ∧
  hasNaiveCollisions s' = false ∧ isGoodFirstHash s' = true

/-- What `initTable` has built for one bucket: `elements` is the bucket,
`h2` the accepted second-level hash, `table` the slot table and `flags` the
presence flags. -/
def BucketBuilt (elements : List Nat) (h2 : UniversalHash) (table : List Nat)
    (flags : List Bool) : Prop :=
  elements.Nodup ∧ flags = List.replicate table.length false ∧ h2.p ≤ table.length ∧
  (elements = [] → table = []) ∧
  (∀ e ∈ elements, ∃ c, h2.calculate e = some c ∧ table[c]? = some e) ∧
  (∀ c v, table[c]? = some v → v = 0 ∨ (v ∈ elements ∧ h2.calculate v = some c))

/-- The effect of a returning `initTable(index)` on the object. -/
def TableDone (index : Nat) (s s' : PerfectHashSet) : Prop :=
  ∃ elements h2 table flags,
    s.hashes[index]? = some elements ∧
    index < s.inserted.length ∧ index < s.second_universal_hashes.length ∧
    s'.hashes = s.hashes.set index table ∧
    s'.inserted = s.inserted.set index flags ∧
    s'.second_universal_hashes = s.second_universal_hashes.set index h2 ∧
    s'.keys_count = s.keys_count ∧ s'.first_universal_hash = s.first_universal_hash ∧
    s'.inserted_count = s.inserted_count ∧
    BucketBuilt elements h2 table flags

/-- The effect of the loop of `initSecondTables` over the indices `is`. -/
def TablesDone (is : List Nat) (s s' : PerfectHashSet) : Prop :=
  s'.keys_count = s.keys_count ∧ s'.first_universal_hash = s.first_universal_hash ∧
  s'.inserted_count = s.inserted_count ∧
  s'.hashes.length = s.hashes.length ∧ s'.inserted.length = s.inserted.length ∧
  (∀ i, i ∉ is → s'.hashes[i]? = s.hashes[i]? ∧ s'.inserted[i]? = s.inserted[i]? ∧
    s'.second_universal_hashes[i]? = s.second_universal_hashes[i]?) ∧
  (∀ i ∈ is, ∃ elements h2 table flags,
    s.hashes[i]? = some elements ∧ s'.second_universal_hashes[i]? = some h2 ∧
    s'.hashes[i]? = some table ∧ s'.inserted[i]? = some flags ∧
    BucketBuilt elements h2 table flags)

/-- The object after a returning `init(keys)`: every bucket of the accepted
first-level hash has its second-level hash, slot table and cleared presence
flags. -/
def Built (keys : List Nat) (s : PerfectHashSet) : Prop :=
  keys.length < 2 ^ 31 ∧ s.keys_count = keys.length ∧
  s.first_universal_hash.p = keys.length ∧ s.hashes.length = keys.length ∧
  s.inserted.length = keys.length ∧
  summaryOf ((List.range keys.length).map (bucketOf s.first_universal_hash keys))
    ≤ (3 * keys.length) % 2 ^ 32 ∧
  ∀ i, i < keys.length → ∃ h2 table flags,
    s.second_universal_hashes[i]? = some h2 ∧ s.hashes[i]? = some table ∧
    s.inserted[i]? = some flags ∧
    BucketBuilt (bucketOf s.first_universal_hash keys i) h2 table flags

/-- The key `key` is stored in the structure at slot `c` of bucket `i`: the
first-level hash sends it to `i`, the second-level hash of that bucket sends it
to `c`, and the slot holds `key`. -/
def Located (s : PerfectHashSet) (key i c : Nat) : Prop :=
  s.first_universal_hash.calculate key = some i ∧
  ∃ table h2, s.hashes[i]? = some table ∧ s.second_universal_hashes[i]? = some h2 ∧
    h2.calculate key = some c ∧ table[c]? = some key

/-- The presence flag `inserted[i][c]`. -/
def flag (s : PerfectHashSet) (i c : Nat) : Option Bool :=
  match s.inserted[i]? with
  | none => none
  | some flags => flags[c]?

/-- The object `s'` has the hash functions and slot tables of `s`, and
presence-flag tables of the same lengths. -/
def SameStructure (s s' : PerfectHashSet) : Prop :=
  s'.first_universal_hash = s.first_universal_hash ∧
  s'.second_universal_hashes = s.second_universal_hashes ∧
  s'.keys_count = s.keys_count ∧ s'.hashes = s.hashes ∧
  s'.inserted.map List.length = s.inserted.map List.length

/-- The states an object goes through from `s0` by calls of `insert` and
`erase` that return, the keys passed being taken among `allowed`. A call that
throws `ImpossibleKeyException` does so before it writes anything, so it adds
no state. -/
inductive Reached (allowed : Nat → Prop) (s0 : PerfectHashSet) : PerfectHashSet → Prop
  | start : Reached allowed s0 s0
  | insert {s s' : PerfectHashSet} {k : Nat} :
      Reached allowed s0 s → allowed k → PerfectHashSet.insert s k = .ok s' →
      Reached allowed s0 s'
  | erase {s s' : PerfectHashSet} {k : Nat} :
      Reached allowed s0 s → allowed k → PerfectHashSet.erase s k = .ok s' →
      Reached allowed s0 s'

/-- The number of keys of the list `U` for which `has` answers true. -/
def presentCount (s : PerfectHashSet) (U : List Nat) : Nat :=
  U.countP (fun j => has s j == some true)

/-- The keys `isPossibleKey` can accept after `init(keys)`: the keys themselves
and the value `0` that fills the unoccupied slots. -/
def acceptedKeys (keys : List Nat) : List Nat :=
  if 0 ∈ keys then keys else 0 :: keys

/-- The outcome is a return, undefined behaviour or an unfinished loop: no
exception. -/
def NoException {α : Type} : Result α → Prop
  | .multipleKeyException _ => False
  | .impossibleKeyException _ => False
  | _ => True

/-- Calls of `insert` in a row, stopping at the first that does not return. -/
def insertAll : PerfectHashSet → List Nat → Result PerfectHashSet
  | s, [] => .ok s
  | s, k :: ks =>
    match insert s k with
    | .ok s1 => insertAll s1 ks
    | other => other

/-- The number of entries of the presence-flag tables that are true. -/
def trueFlags (s : PerfectHashSet) : Nat :=
  (s.inserted.map (fun flags => flags.count true)).sum

/-- The sum over the buckets of the squared bucket size, as an exact natural
number. -/
def sumSquares (hs : List (List Nat)) : Nat :=
  (hs.map (fun b => b.length * b.length)).sum

/-- The keys `0, 65536, 2 * 65536, ..., 65535 * 65536`: the `65536` values of
32 bits that are multiples of `65536`. -/
def unbalancedKeys : List Nat := (List.range 65536).map (fun i => i * 65536)

/-- The object as `init` hands it to `initFirstTable` for `65536` keys. -/
def unbalancedStart : PerfectHashSet :=
  { construct ⟨0, 0, 0⟩ 0 with
    keys_count := 65536,
    hashes := List.replicate 65536 [],
    second_universal_hashes := List.replicate 65536 ⟨0, 0, 0⟩ }

/-- The generator used in the worked examples for the keys `[1, 3]`: one pair
for the first level, one for each of the two buckets. -/
def pairGenerator : Generator := [(2, 0), (1, 1), (1, 1)]

/-- The object `init` builds from a new object for the keys `[1, 3]` with
`pairGenerator`: both keys are in bucket `0`, whose four slots hold
`3, 0, 1, 0`. -/
def pairBuilt : PerfectHashSet :=
  { first_universal_hash := ⟨2, 0, 2⟩,
    second_universal_hashes := [⟨1, 1, 4⟩, ⟨1, 1, 0⟩],
    keys_count := 2,
    inserted_count := 0,
    hashes := [[3, 0, 1, 0], []],
    inserted := [[false, false, false, false], []] }

/-- The generator used in the worked examples for the keys `[5, 17, 42, 1000]`. -/
def quadGenerator : Generator := [(1, 0), (1, 0), (1, 4294967295), (1, 0), (1, 0)]

/-- The object `init` builds from a new object for the keys `[5, 17, 42, 1000]`
with `quadGenerator`. -/
def quadBuilt : PerfectHashSet :=
  { first_universal_hash := ⟨1, 0, 4⟩,
    second_universal_hashes := [⟨1, 0, 1⟩, ⟨1, 4294967295, 4⟩, ⟨1, 0, 1⟩, ⟨1, 0, 0⟩],
    keys_count := 4,
    inserted_count := 0,
    hashes := [[1000], [5, 17, 0, 0], [42], []],
    inserted := [[false], [false, false, false, false], [false], []] }

/-- The object `quadBuilt` after `insert(5)`. -/
def quadWithFive : PerfectHashSet :=
  { quadBuilt with
    inserted := [[false], [true, false, false, false], [false], []],
    inserted_count := 1 }

/-- The object `init` builds from a new object for the single key `5`. -/
def singleBuilt : PerfectHashSet :=
  { first_universal_hash := ⟨1, 0, 1⟩,
    second_universal_hashes := [⟨1, 0, 1⟩],
    keys_count := 1,
    inserted_count := 0,
    hashes := [[5]],
    inserted := [[false]] }

/-- The object with which `initFirstTable` leaves its loop on
`unbalancedKeys` and the sample `(1, 0)`. -/
def unbalancedResult : PerfectHashSet :=
  { unbalancedStart with
    inserted := List.replicate 65536 [],
    first_universal_hash := ⟨1, 0, 65536⟩,
    hashes := unbalancedKeys :: List.replicate 65535 [] }

/-- The generator of the run on the keys `[5, 11, 5, 17, 0, 1]`. -/
def duplicateGenerator : Generator := [(1, 0), (1, 0), (1, 0), (1, 0), (1, 0), (1, 0)]

/-- The object as the `throw` of `initTable(5)` leaves it in the run on the
keys `[5, 11, 5, 17, 0, 1]`: the buckets `0` to `4` are built, bucket `5` has
been overwritten with `16` empty slots. -/
def duplicateThrown : PerfectHashSet :=
  { first_universal_hash := ⟨1, 0, 6⟩,
    second_universal_hashes := [⟨1, 0, 1⟩, ⟨1, 0, 1⟩, ⟨1, 0, 0⟩, ⟨1, 0, 0⟩, ⟨1, 0, 0⟩, ⟨0, 0, 0⟩],
    keys_count := 6,
    inserted_count := 0,
    hashes := [[0], [1], [], [], [], List.replicate 16 0],
    inserted := [[false], [false], [], [], [], List.replicate 16 false] }

/-- The object `init` builds from a new object for the empty key list. -/
def emptyBuilt : PerfectHashSet :=
  { first_universal_hash := ⟨1, 0, 0⟩,
    second_universal_hashes := [],
    keys_count := 0,
    inserted_count := 0,
    hashes := [],
    inserted := [] }

/-- Some bucket among the first `keys_count` holds the same value at two
different positions. -/
def hasRepeatedValue (s : PerfectHashSet) : Prop :=
  ∃ i, i < s.keys_count ∧ ∃ j k : Nat, j < k ∧
    ∃ v, (s.hashes.getD i [])[j]? = some v ∧ (s.hashes.getD i [])[k]? = some v

/-- The object as `init` hands it to `initFirstTable` for six keys. -/
def duplicateStart : PerfectHashSet :=
  { construct ⟨0, 0, 0⟩ 0 with
    keys_count := 6,
    hashes := List.replicate 6 [],
    second_universal_hashes := List.replicate 6 ⟨0, 0, 0⟩ }

/-- The object with which `initFirstTable` leaves its loop on the keys
`[5, 11, 5, 17, 0, 1]` and the sample `(1, 0)`. -/
def duplicateBuckets : PerfectHashSet :=
  { duplicateStart with
    first_universal_hash := ⟨1, 0, 6⟩,
    inserted := List.replicate 6 [],
    hashes := [[0], [1], [], [], [], [5, 11, 5, 17]] }

/-- The keys `0, 1, ..., 65536`: `65537` distinct values. -/
def oversizedKeys : List Nat := List.range 65537

/-- A generator that delivers `4294967296` as the first-level multiplier (it is
stored as `0`, so every key goes to the same bucket) and then `(1, 0)` for each
of the `65537` buckets. -/
def oversizedGenerator : Generator :=
  (4294967296, 0) :: (1, 0) :: List.replicate 65536 (1, 0)

/-! ## Theorems -/

theorem calculate_lt {h : UniversalHash} {v c : Nat} (hc : h.calculate v = some c) :
    c < h.p := by
  unfold UniversalHash.calculate at hc
  split at hc
  · simp at hc
  · rename_i hp
    have hpos : 0 < h.p := Nat.pos_of_ne_zero hp
    simp only [Option.some.injEq] at hc
    subst hc
    exact lt_of_le_of_lt (Nat.mod_le _ _) (Nat.mod_lt _ hpos)

theorem calculate_ne_none {h : UniversalHash} (hp : h.p ≠ 0) (v : Nat) :
    ∃ c, h.calculate v = some c := by
  unfold UniversalHash.calculate
  simp [hp]

theorem calculate_p_ne_zero {h : UniversalHash} {v c : Nat} (hc : h.calculate v = some c) :
    h.p ≠ 0 := by
  have := calculate_lt hc
  omega

theorem pushKeys_spec (h : UniversalHash) :
    ∀ (keys : List Nat) (hs hs' : List (List Nat)), pushKeys h keys hs = some hs' →
      hs'.length = hs.length ∧
      ∀ i, hs'[i]? = (hs[i]?).map (fun b => b ++ bucketOf h keys i) := by
  intro keys
  induction keys with
  | nil =>
    intro hs hs' hpk
    simp only [pushKeys, Option.some.injEq] at hpk
    subst hpk
    simp [bucketOf]
  | cons k ks ih =>
    intro hs hs' hpk
    simp only [pushKeys] at hpk
    split at hpk
    · simp at hpk
    · rename_i index hidx
      split at hpk
      · simp at hpk
      · rename_i bucket hb
        obtain ⟨hlen, hget⟩ := ih _ _ hpk
        refine ⟨by simpa using hlen, ?_⟩
        intro i
        rw [hget i, List.getElem?_set]
        by_cases hi : index = i
        · subst hi
          have hlt : index < hs.length := by
            rcases Nat.lt_or_ge index hs.length with h1 | h1
            · exact h1
            · rw [List.getElem?_eq_none h1] at hb; simp at hb
          simp [hlt, hb, bucketOf, hidx, List.filter_cons]
        · have hne : ¬ (h.calculate k = some i) := by
            rw [hidx]; simpa using hi
          simp [hi, bucketOf, List.filter_cons, hne]

theorem clearBuckets_aux (hs : List (List Nat)) :
    ∀ m, m ≤ hs.length →
      clearBuckets m hs = some (List.replicate m [] ++ hs.drop m) := by
  intro m
  induction m with
  | zero => intro _; simp [clearBuckets]
  | succ m ih =>
    intro hm
    have ih' := ih (by omega)
    unfold clearBuckets at ih' ⊢
    rw [List.range_succ, List.foldl_append, ih']
    simp only [List.foldl_cons, List.foldl_nil, List.length_append, List.length_replicate,
      List.length_drop]
    rw [if_pos (by omega)]
    congr 1
    apply List.ext_getElem?
    intro i
    simp only [List.getElem?_set, List.getElem?_append, List.getElem?_replicate,
      List.length_replicate, List.getElem?_drop, List.length_append, List.length_drop]
    by_cases h1 : m = i
    · subst h1
      simp
      omega
    · by_cases h2 : i < m
      · have h3 : i < m + 1 := by omega
        simp [h1, h2, h3]
      · have h3 : ¬ i < m + 1 := by omega
        simp [h1, h2, h3]
        congr 1
        omega

theorem clearBuckets_eq (hs : List (List Nat)) :
    clearBuckets hs.length hs = some (List.replicate hs.length []) := by
  rw [clearBuckets_aux hs hs.length le_rfl]
  simp

theorem map_range_getD {α : Type} (hs : List α) (d : α) :
    (List.range hs.length).map (fun i => hs.getD i d) = hs := by
  apply List.ext_getElem?
  intro i
  by_cases hi : i < hs.length
  · simp [hi, List.getD_eq_getElem?_getD]
  · have h1 : hs.length ≤ i := by omega
    rw [List.getElem?_eq_none h1, List.getElem?_eq_none (by simpa using h1)]

theorem any_map_comp {α β : Type} (f : α → β) (q : β → Bool) :
    ∀ l : List α, (l.map f).any q = l.any (fun x => q (f x))
  | [] => rfl
  | x :: l => by simp [List.any_cons, any_map_comp f q l]

theorem hasNaiveCollisions_eq (s : PerfectHashSet) (h : s.hashes.length = s.keys_count) :
    hasNaiveCollisions s = s.hashes.any bucketCollision := by
  unfold hasNaiveCollisions
  conv_rhs => rw [← map_range_getD s.hashes []]
  rw [h, any_map_comp]

theorem isGoodFirstHash_eq (s : PerfectHashSet) (h : s.hashes.length = s.keys_count) :
    isGoodFirstHash s = decide (summaryOf s.hashes ≤ (3 * s.keys_count) % 2 ^ 32) := by
  unfold isGoodFirstHash summaryOf
  conv_rhs => rw [← map_range_getD s.hashes []]
  rw [List.foldl_map, h]

theorem adjacentEqual_of_nodup : ∀ (b : List Nat), b.Nodup → adjacentEqual b = false
  | [], _ => rfl
  | [_], _ => rfl
  | x :: y :: rest, hnd => by
    have hxy : x ≠ y := by
      intro hxy
      subst hxy
      simp at hnd
    have htail : (y :: rest).Nodup := (List.nodup_cons.mp hnd).2
    simp [adjacentEqual, hxy, adjacentEqual_of_nodup (y :: rest) htail]

theorem bucketCollision_of_nodup (b : List Nat) (hnd : b.Nodup) : bucketCollision b = false := by
  unfold bucketCollision
  split
  · rename_i x y z
    simp only [List.nodup_cons, List.mem_cons, List.mem_singleton, not_or, List.not_mem_nil,
      not_false_eq_true, List.nodup_nil, and_true] at hnd
    obtain ⟨⟨h1, h2⟩, h3⟩ := hnd
    simp [h1, h2, h3]
  · exact adjacentEqual_of_nodup b hnd

theorem bucketOf_nodup (h : UniversalHash) {keys : List Nat} (hnd : keys.Nodup) (i : Nat) :
    (bucketOf h keys i).Nodup :=
  hnd.filter _

theorem firstTable_step {keys : List Nat} {smp : Nat × Nat} {s : PerfectHashSet}
    {hs : List (List Nat)}
    (hpk : pushKeys (makeRandomHash smp s.keys_count) keys (List.replicate s.keys_count []) = some hs) :
    hs.length = s.keys_count ∧
    ∀ i, i < s.keys_count → hs[i]? = some (bucketOf (makeRandomHash smp s.keys_count) keys i) := by
  obtain ⟨h1, h2⟩ := pushKeys_spec _ _ _ _ hpk
  refine ⟨by simpa using h1, ?_⟩
  intro i hi
  rw [h2 i]
  simp [hi]

theorem firstTableLoop_spec (keys : List Nat) :
    ∀ (g : Generator) (s s' : PerfectHashSet) (g' : Generator),
      s.hashes.length = s.keys_count →
      firstTableLoop keys g s = .ok (s', g') → FirstDone keys s s' := by
  intro g
  induction g with
  | nil => intro s s' g' _ h; simp [firstTableLoop] at h
  | cons smp g ih =>
    intro s s' g' hlen h
    unfold firstTableLoop at h
    have hclr := clearBuckets_eq s.hashes
    rw [hlen] at hclr
    rw [hclr] at h
    simp only at h
    split at h
    · simp at h
    · rename_i hs hpk
      obtain ⟨hl, hb⟩ := firstTable_step hpk
      split at h
      · simp at h
      · rename_i hcol
        split at h
        · rename_i hgood
          simp only [Result.ok.injEq, Prod.mk.injEq] at h
          obtain ⟨h, _⟩ := h
          subst h
          refine ⟨rfl, rfl, rfl, rfl, rfl, hl, hb, by simpa using hcol, hgood⟩
        · have := ih _ s' g' (by simpa using hl) h
          obtain ⟨a1, a2, a3, a4, a5, a6, a7, a8, a9⟩ := this
          exact ⟨a1, a2, a3, a4, a5, a6, a7, a8, a9⟩

theorem firstTableLoop_no_multiple (keys : List Nat) (hnd : keys.Nodup) :
    ∀ (g : Generator) (s : PerfectHashSet), s.hashes.length = s.keys_count →
      ∀ st, firstTableLoop keys g s ≠ .multipleKeyException st := by
  intro g
  induction g with
  | nil => intro s _ st; simp [firstTableLoop]
  | cons smp g ih =>
    intro s hlen st
    unfold firstTableLoop
    have hclr := clearBuckets_eq s.hashes
    rw [hlen] at hclr
    rw [hclr]
    simp only
    split
    · simp
    · rename_i hs hpk
      obtain ⟨hl, hb⟩ := firstTable_step hpk
      have hcol : hasNaiveCollisions
          { s with first_universal_hash := makeRandomHash smp s.keys_count, hashes := hs } = false := by
        rw [hasNaiveCollisions_eq _ (by simpa using hl)]
        simp only
        rw [Bool.eq_false_iff]
        intro hany
        rw [List.any_eq_true] at hany
        obtain ⟨b, hbm, hbc⟩ := hany
        obtain ⟨i, hi, rfl⟩ := List.getElem_of_mem hbm
        have h1 := hb i (by omega)
        rw [List.getElem?_eq_getElem hi] at h1
        simp only [Option.some.injEq] at h1
        rw [h1, bucketCollision_of_nodup _ (bucketOf_nodup _ hnd i)] at hbc
        simp at hbc
      rw [hcol]
      simp only [Bool.false_eq_true, if_false]
      split
      · simp
      · exact ih _ (by simpa using hl) st

theorem hasEqualPair_eq_false_iff : ∀ (l : List Nat), hasEqualPair l = false ↔ l.Nodup
  | [] => by simp [hasEqualPair]
  | x :: rest => by
    simp only [hasEqualPair, Bool.or_eq_false_iff, List.nodup_cons,
      hasEqualPair_eq_false_iff rest]
    constructor
    · rintro ⟨h1, h2⟩
      refine ⟨?_, h2⟩
      intro hmem
      have : (rest.any fun y => x == y) = true := by
        rw [List.any_eq_true]
        exact ⟨x, hmem, by simp⟩
      rw [h1] at this
      simp at this
    · rintro ⟨h1, h2⟩
      refine ⟨?_, h2⟩
      rw [Bool.eq_false_iff]
      intro hany
      rw [List.any_eq_true] at hany
      obtain ⟨y, hy, hxy⟩ := hany
      have : x = y := by simpa using hxy
      subst this
      exact h1 hy

theorem tryHash_spec (h : UniversalHash) :
    ∀ (es : List Nat) (used : List Bool), tryHash h es used = some true →
      (∀ e ∈ es, ∃ c, h.calculate e = some c ∧ used[c]? = some false) ∧
      es.Pairwise (fun e e' => h.calculate e ≠ h.calculate e') := by
  intro es
  induction es with
  | nil => intro used _; simp
  | cons e es ih =>
    intro used ht
    simp only [tryHash] at ht
    split at ht
    · simp at ht
    · rename_i c hc
      split at ht
      · simp at ht
      · simp at ht
      · rename_i hu
        obtain ⟨h1, h2⟩ := ih _ ht
        have hfree : ∀ e' ∈ es, ∃ c', h.calculate e' = some c' ∧ c' ≠ c ∧
            used[c']? = some false := by
          intro e' he'
          obtain ⟨c', hc', hu'⟩ := h1 e' he'
          rw [List.getElem?_set] at hu'
          by_cases hcc : c = c'
          · subst hcc
            rw [if_pos rfl] at hu'
            split at hu' <;> simp at hu'
          · rw [if_neg hcc] at hu'
            exact ⟨c', hc', fun hh => hcc hh.symm, hu'⟩
        refine ⟨?_, ?_⟩
        · intro e' he'
          rcases List.mem_cons.mp he' with rfl | he'
          · exact ⟨c, hc, hu⟩
          · obtain ⟨c', hc', _, hu'⟩ := hfree e' he'
            exact ⟨c', hc', hu'⟩
        · rw [List.pairwise_cons]
          refine ⟨?_, h2⟩
          intro e' he'
          obtain ⟨c', hc', hne, _⟩ := hfree e' he'
          rw [hc, hc']
          intro hh
          exact hne (Option.some.inj hh).symm

theorem fillTable_spec (h : UniversalHash) :
    ∀ (es : List Nat) (table table' : List Nat), fillTable h es table = some table' →
      table'.length = table.length ∧
      (∀ c, (∀ e ∈ es, h.calculate e ≠ some c) → table'[c]? = table[c]?) ∧
      (∀ c v, table'[c]? = some v →
        table[c]? = some v ∨ (v ∈ es ∧ h.calculate v = some c)) ∧
      (es.Pairwise (fun e e' => h.calculate e ≠ h.calculate e') →
        ∀ e ∈ es, ∃ c, h.calculate e = some c ∧ table'[c]? = some e) := by
  intro es
  induction es with
  | nil =>
    intro table table' hf
    simp only [fillTable, Option.some.injEq] at hf
    subst hf
    simp
  | cons e es ih =>
    intro table table' hf
    simp only [fillTable] at hf
    split at hf
    · simp at hf
    · rename_i c hc
      split at hf
      · rename_i hlt
        obtain ⟨h1, h2, h3, h4⟩ := ih _ _ hf
        refine ⟨by simpa using h1, ?_, ?_, ?_⟩
        · intro c' hfree
          rw [h2 c' (fun e' he' => hfree e' (List.mem_cons_of_mem _ he'))]
          have hne : c ≠ c' := by
            intro hh
            subst hh
            exact hfree e (List.mem_cons_self _ _) hc
          rw [List.getElem?_set, if_neg hne]
        · intro c' v hv
          rcases h3 c' v hv with h5 | ⟨h5, h6⟩
          · rw [List.getElem?_set] at h5
            by_cases hcc : c = c'
            · subst hcc
              rw [if_pos rfl, if_pos hlt] at h5
              simp only [Option.some.injEq] at h5
              subst h5
              exact Or.inr ⟨List.mem_cons_self _ _, hc⟩
            · rw [if_neg hcc] at h5
              exact Or.inl h5
          · exact Or.inr ⟨List.mem_cons_of_mem _ h5, h6⟩
        · intro hpw e' he'
          rw [List.pairwise_cons] at hpw
          rcases List.mem_cons.mp he' with rfl | he'
          · refine ⟨c, hc, ?_⟩
            rw [h2 c (fun e'' he'' hh => hpw.1 e'' he'' (by rw [hc, hh]))]
            rw [List.getElem?_set, if_pos rfl, if_pos hlt]
          · exact h4 hpw.2 e' he'
      · simp at hf

theorem secondTableLoop_spec (index : Nat) (elements : List Nat) (size : Nat) :
    ∀ (g : Generator) (s s' : PerfectHashSet) (g' : Generator),
      s.hashes[index]? = some (List.replicate size 0) →
      secondTableLoop index elements size g s = .ok (s', g') →
      ∃ h2 table,
        s'.hashes = s.hashes.set index table ∧
        s'.inserted = s.inserted ∧
        s'.second_universal_hashes = s.second_universal_hashes.set index h2 ∧
        s'.keys_count = s.keys_count ∧ s'.first_universal_hash = s.first_universal_hash ∧
        s'.inserted_count = s.inserted_count ∧
        h2.p ≤ size ∧ table.length = size ∧
        (∀ e ∈ elements, ∃ c, h2.calculate e = some c ∧ table[c]? = some e) ∧
        (∀ c v, table[c]? = some v → v = 0 ∨ (v ∈ elements ∧ h2.calculate v = some c)) := by
  intro g
  induction g with
  | nil => intro s s' g' _ h; simp [secondTableLoop] at h
  | cons smp g ih =>
    intro s s' g' hget h
    simp only [secondTableLoop] at h
    split at h
    · simp at h
    · obtain ⟨h2, table, a1, a2, a3, a4, a5, a6, a7⟩ := ih _ s' g' (by simpa using hget) h
      refine ⟨h2, table, by simpa using a1, by simpa using a2, ?_, by simpa using a4,
        by simpa using a5, by simpa using a6, a7⟩
      rw [a3]
      simp [List.set_set]
    · rename_i htry
      split at h
      · simp at h
      · rename_i table hfill
        simp only [Result.ok.injEq, Prod.mk.injEq] at h
        obtain ⟨h, _⟩ := h
        subst h
        have hD : s.hashes.getD index [] = List.replicate size 0 := by
          rw [List.getD_eq_getElem?_getD, hget]; rfl
        simp only [hD] at hfill
        obtain ⟨t1, t2⟩ := tryHash_spec _ _ _ htry
        obtain ⟨f1, _, f3, f4⟩ := fillTable_spec _ _ _ _ hfill
        refine ⟨makeRandomHash smp size, table, rfl, rfl, rfl, rfl, rfl, rfl, ?_, ?_,
          f4 t2, ?_⟩
        · simp only [makeRandomHash]
          exact Nat.mod_le _ _
        · simpa using f1
        · intro c v hv
          rcases f3 c v hv with h5 | h5
          · left
            rw [List.getElem?_replicate] at h5
            split at h5 <;> simp at h5
            exact h5.symm
          · exact Or.inr h5

theorem initTable_spec (index : Nat) (g : Generator) (s s' : PerfectHashSet) (g' : Generator)
    (h : initTable index g s = .ok (s', g')) : TableDone index s s' := by
  unfold initTable at h
  split at h
  · simp at h
  · rename_i elements hel
    split at h
    · rename_i hidx
      simp only at h
      split at h
      · simp at h
      · rename_i hpair
        split at h
        · rename_i hidx2
          have hnd : elements.Nodup :=
            (hasEqualPair_eq_false_iff elements).mp (by simpa using hpair)
          have hlt : index < s.hashes.length := by
            rcases Nat.lt_or_ge index s.hashes.length with h1 | h1
            · exact h1
            · rw [List.getElem?_eq_none h1] at hel; simp at hel
          obtain ⟨h2, table, a1, a2, a3, a4, a5, a6, a7, a8, a9, a10⟩ :=
            secondTableLoop_spec index elements _ g _ s' g' (by simp [hlt]) h
          refine ⟨elements, h2, table, _, hel, hidx, hidx2, ?_, a2, a3, a4, a5, a6,
            hnd, ?_, ?_, ?_, a9, a10⟩
          · rw [a1]; simp [List.set_set]
          · rw [a8]
          · rw [a8]; exact a7
          · intro he
            subst he
            have : table.length = 0 := by rw [a8]; simp
            exact List.length_eq_zero.mp this
        · simp at h
    · simp at h

theorem getElem?_set_self_of_lt {α : Type} (l : List α) (i : Nat) (a : α) (h : i < l.length) :
    (l.set i a)[i]? = some a := by
  rw [List.getElem?_set, if_pos rfl, if_pos h]

theorem getElem?_set_of_ne {α : Type} (l : List α) {i j : Nat} (a : α) (h : i ≠ j) :
    (l.set i a)[j]? = l[j]? := by
  rw [List.getElem?_set, if_neg h]

theorem lt_length_of_getElem? {α : Type} {l : List α} {i : Nat} {a : α}
    (h : l[i]? = some a) : i < l.length := by
  rcases Nat.lt_or_ge i l.length with h1 | h1
  · exact h1
  · rw [List.getElem?_eq_none h1] at h; simp at h

theorem secondTablesLoop_spec :
    ∀ (is : List Nat) (g : Generator) (s s' : PerfectHashSet) (g' : Generator),
      is.Nodup → secondTablesLoop is g s = .ok (s', g') → TablesDone is s s' := by
  intro is
  induction is with
  | nil =>
    intro g s s' g' _ h
    simp only [secondTablesLoop, Result.ok.injEq, Prod.mk.injEq] at h
    obtain ⟨h, _⟩ := h
    subst h
    exact ⟨rfl, rfl, rfl, rfl, rfl, fun _ _ => ⟨rfl, rfl, rfl⟩, fun i hi => by simp at hi⟩
  | cons i rest ih =>
    intro g s s' g' hnd h
    rw [List.nodup_cons] at hnd
    simp only [secondTablesLoop] at h
    split at h
    · rename_i s1 g1 hinit
      obtain ⟨elements, h2, table, flags, e1, e2, e3, e4, e5, e6, e7, e8, e9, e10⟩ :=
        initTable_spec i g s s1 g1 hinit
      obtain ⟨b1, b2, b3, b4, b4i, b5, b6⟩ := ih g1 s1 s' g' hnd.2 h
      have hil : i < s.hashes.length := lt_length_of_getElem? e1
      refine ⟨b1.trans e7, b2.trans e8, b3.trans e9, ?_, ?_, ?_, ?_⟩
      · rw [b4, e4]; simp
      · rw [b4i, e5]; simp
      · intro j hj
        rw [List.mem_cons, not_or] at hj
        obtain ⟨c1, c2, c3⟩ := b5 j hj.2
        have hne : i ≠ j := fun hh => hj.1 hh.symm
        rw [c1, c2, c3, e4, e5, e6]
        exact ⟨getElem?_set_of_ne _ _ hne, getElem?_set_of_ne _ _ hne,
          getElem?_set_of_ne _ _ hne⟩
      · intro j hj
        rcases List.mem_cons.mp hj with rfl | hj
        · obtain ⟨c1, c2, c3⟩ := b5 j hnd.1
          refine ⟨elements, h2, table, flags, e1, ?_, ?_, ?_, e10⟩
          · rw [c3, e6]; exact getElem?_set_self_of_lt _ _ _ e3
          · rw [c1, e4]; exact getElem?_set_self_of_lt _ _ _ hil
          · rw [c2, e5]; exact getElem?_set_self_of_lt _ _ _ e2
        · obtain ⟨el, h2', table', flags', d1, d2, d3, d4, d5⟩ := b6 j hj
          have hne : i ≠ j := by
            intro hh
            subst hh
            exact hnd.1 hj
          refine ⟨el, h2', table', flags', ?_, d2, d3, d4, d5⟩
          rw [← d1, e4]
          exact (getElem?_set_of_ne _ _ hne).symm
    all_goals simp at h

theorem init_spec (g : Generator) (keys : List Nat) (s s' : PerfectHashSet) (g' : Generator)
    (h : init g keys s = .ok (s', g')) :
    Built keys s' ∧ s'.inserted_count = s.inserted_count := by
  unfold init at h
  split at h
  · simp at h
  · rename_i hlen
    have hlen' : keys.length < 2 ^ 31 := by omega
    have hmod : keys.length % 2 ^ 32 = keys.length := Nat.mod_eq_of_lt (by omega)
    simp only [hmod] at h
    split at h
    · rename_i s2 g2 hfirst
      unfold initFirstTable at hfirst
      obtain ⟨a1, a2, a3, a4, a5, a6, a7, a8, a9⟩ :=
        firstTableLoop_spec keys g _ s2 g2 (by simp) hfirst
      simp only at a1 a2 a3 a4 a5 a6 a7
      unfold initSecondTables at h
      obtain ⟨b1, b2, b3, b4, b4i, b5, b6⟩ :=
        secondTablesLoop_spec _ g2 s2 s' g' (List.nodup_range _) h
      rw [hmod] at a5
      have hs2 : s2.hashes = (List.range keys.length).map
          (bucketOf s2.first_universal_hash keys) := by
        apply List.ext_getElem?
        intro i
        by_cases hi : i < keys.length
        · rw [a7 i hi]; simp [hi]
        · rw [List.getElem?_eq_none (by omega), List.getElem?_eq_none (by simp; omega)]
      refine ⟨⟨hlen', b1.trans a1, by rw [b2]; exact a5, by rw [b4]; exact a6,
        by rw [b4i, a2]; simp [hmod], ?_, ?_⟩, b3.trans a3⟩
      · rw [b2, ← hs2]
        rw [isGoodFirstHash_eq s2 (a6.trans a1.symm), a1] at a9
        simpa using a9
      · intro i hi
        obtain ⟨el, h2, table, flags, d1, d2, d3, d4, d5⟩ :=
          b6 i (by rw [List.mem_range, a1]; exact hi)
        rw [a7 i hi] at d1
        simp only [Option.some.injEq] at d1
        subst d1
        rw [b2]
        exact ⟨h2, table, flags, d2, d3, d4, d5⟩
    all_goals simp at h

theorem located_unique {s : PerfectHashSet} {key i c i' c' : Nat}
    (h : Located s key i c) (h' : Located s key i' c') : i = i' ∧ c = c' := by
  obtain ⟨a1, table, h2, a2, a3, a4, a5⟩ := h
  obtain ⟨b1, table', h2', b2, b3, b4, b5⟩ := h'
  rw [a1] at b1
  simp only [Option.some.injEq] at b1
  subst b1
  rw [a3] at b3
  simp only [Option.some.injEq] at b3
  subst b3
  rw [a4] at b4
  simp only [Option.some.injEq] at b4
  exact ⟨rfl, b4⟩

theorem located_inj {s : PerfectHashSet} {key key' i c : Nat}
    (h : Located s key i c) (h' : Located s key' i c) : key = key' := by
  obtain ⟨_, table, h2, a2, _, _, a5⟩ := h
  obtain ⟨_, table', h2', b2, _, _, b5⟩ := h'
  rw [a2] at b2
  simp only [Option.some.injEq] at b2
  subst b2
  rw [a5] at b5
  simpa using b5

theorem isPossibleKey_of_located {s : PerfectHashSet} {key i c : Nat}
    (h : Located s key i c) : isPossibleKey s key = some true := by
  obtain ⟨a1, table, h2, a2, a3, a4, a5⟩ := h
  have hne : table.isEmpty = false := by
    cases table with
    | nil => simp at a5
    | cons _ _ => rfl
  simp [isPossibleKey, a1, a2, a3, a4, a5, hne]

theorem located_of_isPossibleKey {s : PerfectHashSet} {key : Nat}
    (h : isPossibleKey s key = some true) : ∃ i c, Located s key i c := by
  unfold isPossibleKey at h
  split at h
  · simp at h
  · rename_i i hi
    split at h
    · simp at h
    · rename_i table ht
      split at h
      · simp at h
      · split at h
        · simp at h
        · rename_i h2 hh2
          split at h
          · simp at h
          · rename_i c hc
            split at h
            · simp at h
            · rename_i stored hst
              simp only [Option.some.injEq, beq_iff_eq] at h
              subst h
              exact ⟨i, c, hi, table, h2, ht, hh2, hc, hst⟩

theorem flagAt_of_located {s : PerfectHashSet} {key i c : Nat} (h : Located s key i c) :
    flagAt s i key = flag s i c := by
  obtain ⟨_, table, h2, _, a3, a4, _⟩ := h
  simp only [flagAt, a3, a4, flag]

theorem has_of_located {s : PerfectHashSet} {key i c : Nat} (h : Located s key i c) :
    has s key = flag s i c := by
  unfold has
  rw [h.1, isPossibleKey_of_located h]
  exact flagAt_of_located h

theorem insert_of_located {s : PerfectHashSet} {key i c : Nat} (h : Located s key i c) :
    insert s key =
      match flag s i c with
      | none => .undefinedBehaviour
      | some true => .ok s
      | some false =>
        .ok { s with
          inserted := setFlag s i c true,
          inserted_count := (s.inserted_count + 1) % 2 ^ 32 } := by
  unfold insert
  rw [isPossibleKey_of_located h, h.1]
  have hf := flagAt_of_located h
  obtain ⟨_, table, h2, _, a3, a4, _⟩ := h
  simp only [a3, a4, hf]

theorem erase_of_located {s : PerfectHashSet} {key i c : Nat} (h : Located s key i c) :
    erase s key =
      match flag s i c with
      | none => .undefinedBehaviour
      | some false => .ok s
      | some true =>
        .ok { s with
          inserted := setFlag s i c false,
          inserted_count := (s.inserted_count + 2 ^ 32 - 1) % 2 ^ 32 } := by
  unfold erase
  rw [isPossibleKey_of_located h, h.1]
  have hf := flagAt_of_located h
  obtain ⟨_, table, h2, _, a3, a4, _⟩ := h
  simp only [a3, a4, hf]

theorem SameStructure.refl (s : PerfectHashSet) : SameStructure s s :=
  ⟨rfl, rfl, rfl, rfl, rfl⟩

theorem SameStructure.trans {s s' s'' : PerfectHashSet} (h : SameStructure s s')
    (h' : SameStructure s' s'') : SameStructure s s'' :=
  ⟨h'.1.trans h.1, h'.2.1.trans h.2.1, h'.2.2.1.trans h.2.2.1, h'.2.2.2.1.trans h.2.2.2.1,
    h'.2.2.2.2.trans h.2.2.2.2⟩

theorem SameStructure.located {s s' : PerfectHashSet} (h : SameStructure s s')
    {key i c : Nat} : Located s' key i c ↔ Located s key i c := by
  obtain ⟨a1, a2, _, a4, _⟩ := h
  unfold Located
  rw [a1, a2, a4]

theorem SameStructure.isPossibleKey {s s' : PerfectHashSet} (h : SameStructure s s')
    (key : Nat) : isPossibleKey s' key = isPossibleKey s key := by
  obtain ⟨a1, a2, _, a4, _⟩ := h
  unfold PerfectHashSet.isPossibleKey
  rw [a1, a2, a4]

theorem SameStructure.flag_isSome {s s' : PerfectHashSet} (h : SameStructure s s')
    {i c : Nat} {b : Bool} (hb : flag s i c = some b) : ∃ b', flag s' i c = some b' := by
  have hmap := congrArg (fun l => l[i]?) h.2.2.2.2
  simp only [List.getElem?_map] at hmap
  unfold flag at hb ⊢
  split at hb
  · simp at hb
  · rename_i flags hfl
    rw [hfl] at hmap
    cases hfl' : s'.inserted[i]? with
    | none => rw [hfl'] at hmap; simp at hmap
    | some flags' =>
      rw [hfl'] at hmap
      simp only [Option.map_some', Option.some.injEq] at hmap
      have hc : c < flags'.length := by
        rw [hmap]; exact lt_length_of_getElem? hb
      exact ⟨flags'[c], by simp [List.getElem?_eq_getElem hc]⟩

theorem setFlag_sameStructure (s : PerfectHashSet) (i c : Nat) (v : Bool) (n : Nat) :
    SameStructure s { s with inserted := setFlag s i c v, inserted_count := n } := by
  refine ⟨rfl, rfl, rfl, rfl, ?_⟩
  simp only [setFlag]
  apply List.ext_getElem?
  intro j
  simp only [List.getElem?_map, List.getElem?_set]
  by_cases hij : i = j
  · subst hij
    by_cases hi : i < s.inserted.length
    · simp [hi, List.getD_eq_getElem?_getD, List.getElem?_eq_getElem hi]
    · simp [hi, List.getElem?_eq_none (Nat.le_of_not_lt hi)]
  · simp [hij]

theorem flag_setFlag_self {s : PerfectHashSet} {i c : Nat} {b : Bool} (v : Bool) (n : Nat)
    (hb : flag s i c = some b) :
    flag { s with inserted := setFlag s i c v, inserted_count := n } i c = some v := by
  unfold flag at hb ⊢
  split at hb
  · simp at hb
  · rename_i flags hfl
    have hi := lt_length_of_getElem? hfl
    have hc := lt_length_of_getElem? hb
    simp only [setFlag, List.getD_eq_getElem?_getD, hfl, Option.getD_some]
    rw [getElem?_set_self_of_lt _ _ _ hi]
    exact getElem?_set_self_of_lt _ _ _ hc

theorem flag_setFlag_other (s : PerfectHashSet) {i c i' c' : Nat} (v : Bool) (n : Nat)
    (hne : ¬ (i = i' ∧ c = c')) :
    flag { s with inserted := setFlag s i c v, inserted_count := n } i' c' = flag s i' c' := by
  unfold flag
  simp only [setFlag]
  by_cases hi : i = i'
  · subst hi
    have hc : c ≠ c' := fun hh => hne ⟨rfl, hh⟩
    rw [List.getElem?_set, if_pos rfl]
    by_cases hlt : i < s.inserted.length
    · rw [if_pos hlt]
      simp only [List.getD_eq_getElem?_getD, List.getElem?_eq_getElem hlt, Option.getD_some]
      exact getElem?_set_of_ne _ _ hc
    · rw [if_neg hlt, List.getElem?_eq_none (Nat.le_of_not_lt hlt)]
  · rw [getElem?_set_of_ne _ _ hi]

theorem mem_of_mem_bucketOf {h : UniversalHash} {keys : List Nat} {i k : Nat}
    (hk : k ∈ bucketOf h keys i) : k ∈ keys ∧ h.calculate k = some i := by
  unfold bucketOf at hk
  rw [List.mem_filter] at hk
  exact ⟨hk.1, by simpa using hk.2⟩

theorem mem_bucketOf {h : UniversalHash} {keys : List Nat} {i k : Nat}
    (hk : k ∈ keys) (hc : h.calculate k = some i) : k ∈ bucketOf h keys i := by
  unfold bucketOf
  rw [List.mem_filter]
  exact ⟨hk, by simpa using hc⟩

theorem Built.first_defined {keys : List Nat} {s : PerfectHashSet} (hb : Built keys s)
    (hne : keys ≠ []) (k : Nat) :
    ∃ i, s.first_universal_hash.calculate k = some i ∧ i < keys.length := by
  obtain ⟨_, _, hp, _⟩ := hb
  have hpos : s.first_universal_hash.p ≠ 0 := by
    rw [hp]
    exact fun hh => hne (List.length_eq_zero.mp hh)
  obtain ⟨i, hi⟩ := calculate_ne_none hpos k
  exact ⟨i, hi, by rw [← hp]; exact calculate_lt hi⟩

theorem Built.nodup {keys : List Nat} {s : PerfectHashSet} (hb : Built keys s) :
    keys.Nodup := by
  rw [List.nodup_iff_count_le_one]
  intro a
  by_cases ha : a ∈ keys
  · obtain ⟨i, hi, hlt⟩ := hb.first_defined (List.ne_nil_of_mem ha) a
    obtain ⟨_, _, _, _, _, _, hbk⟩ := hb
    obtain ⟨h2, table, flags, _, _, _, hnd, _⟩ := hbk i hlt
    rw [List.nodup_iff_count_le_one] at hnd
    have := hnd a
    unfold bucketOf at this
    rw [List.count_filter (by simpa using hi)] at this
    exact this
  · rw [List.count_eq_zero_of_not_mem ha]
    exact Nat.zero_le _

theorem Built.located_of_mem {keys : List Nat} {s : PerfectHashSet} (hb : Built keys s)
    {k : Nat} (hk : k ∈ keys) : ∃ i c, Located s k i c := by
  obtain ⟨i, hi, hlt⟩ := hb.first_defined (List.ne_nil_of_mem hk) k
  obtain ⟨_, _, _, _, _, _, hbk⟩ := hb
  obtain ⟨h2, table, flags, a1, a2, a3, _, _, _, _, a4, _⟩ := hbk i hlt
  obtain ⟨c, hc, hst⟩ := a4 k (mem_bucketOf hk hi)
  exact ⟨i, c, hi, table, h2, a2, a1, hc, hst⟩

theorem Built.mem_of_located {keys : List Nat} {s : PerfectHashSet} (hb : Built keys s)
    {k i c : Nat} (hl : Located s k i c) : k = 0 ∨ k ∈ keys := by
  obtain ⟨a1, table, h2, a2, a3, a4, a5⟩ := hl
  obtain ⟨_, _, hp, _, _, _, hbk⟩ := hb
  have hlt : i < keys.length := by rw [← hp]; exact calculate_lt a1
  obtain ⟨h2', table', flags, b1, b2, b3, _, _, _, _, _, b4⟩ := hbk i hlt
  rw [a2] at b2
  simp only [Option.some.injEq] at b2
  subst b2
  rcases b4 c k a5 with h0 | ⟨hm, _⟩
  · exact Or.inl h0
  · exact Or.inr (mem_of_mem_bucketOf hm).1

theorem Built.flag_false {keys : List Nat} {s : PerfectHashSet} (hb : Built keys s)
    {k i c : Nat} (hl : Located s k i c) : flag s i c = some false := by
  obtain ⟨a1, table, h2, a2, a3, a4, a5⟩ := hl
  obtain ⟨_, _, hp, _, _, _, hbk⟩ := hb
  have hlt : i < keys.length := by rw [← hp]; exact calculate_lt a1
  obtain ⟨h2', table', flags, b1, b2, b3, _, b4, _⟩ := hbk i hlt
  rw [a2] at b2
  simp only [Option.some.injEq] at b2
  subst b2
  have hc := lt_length_of_getElem? a5
  unfold flag
  rw [b3]
  simp only [b4, List.getElem?_replicate, hc, if_true]

theorem Built.isPossibleKey_defined {keys : List Nat} {s : PerfectHashSet}
    (hb : Built keys s) (hne : keys ≠ []) (k : Nat) : ∃ b, isPossibleKey s k = some b := by
  obtain ⟨i, hi, hlt⟩ := hb.first_defined hne k
  obtain ⟨_, _, _, _, _, _, hbk⟩ := hb
  obtain ⟨h2, table, flags, a1, a2, a3, _, _, a4, a5, a6, _⟩ := hbk i hlt
  unfold isPossibleKey
  simp only [hi, a2]
  by_cases hemp : table.isEmpty = true
  · exact ⟨false, by simp [hemp]⟩
  · simp only [hemp, Bool.false_eq_true, if_false, a1]
    have hel : bucketOf s.first_universal_hash keys i ≠ [] := by
      intro hh
      exact hemp (by rw [a5 hh]; rfl)
    obtain ⟨e, he⟩ := List.exists_mem_of_ne_nil _ hel
    obtain ⟨c0, hc0, _⟩ := a6 e he
    obtain ⟨c, hc⟩ := calculate_ne_none (calculate_p_ne_zero hc0) k
    have hlt2 : c < table.length := lt_of_lt_of_le (calculate_lt hc) a4
    simp only [hc, List.getElem?_eq_getElem hlt2]
    exact ⟨_, rfl⟩

theorem Built.isPossibleKey_false {keys : List Nat} {s : PerfectHashSet}
    (hb : Built keys s) (hne : keys ≠ []) {k : Nat} (hk : k ∉ keys) (h0 : k ≠ 0) :
    isPossibleKey s k = some false := by
  obtain ⟨b, hbk⟩ := hb.isPossibleKey_defined hne k
  cases b with
  | false => exact hbk
  | true =>
    obtain ⟨i, c, hl⟩ := located_of_isPossibleKey hbk
    rcases hb.mem_of_located hl with h | h
    · exact absurd h h0
    · exact absurd h hk

theorem insert_cases {s s' : PerfectHashSet} {k : Nat} (h : insert s k = .ok s') :
    ∃ i c, Located s k i c ∧
      ((flag s i c = some true ∧ s' = s) ∨
       (flag s i c = some false ∧
          s' = { s with
            inserted := setFlag s i c true,
            inserted_count := (s.inserted_count + 1) % 2 ^ 32 })) := by
  have hp : isPossibleKey s k = some true := by
    unfold insert at h
    split at h
    · simp at h
    · simp at h
    · assumption
  obtain ⟨i, c, hl⟩ := located_of_isPossibleKey hp
  refine ⟨i, c, hl, ?_⟩
  rw [insert_of_located hl] at h
  split at h
  · simp at h
  · rename_i hf
    simp only [Result.ok.injEq] at h
    exact Or.inl ⟨hf, h.symm⟩
  · rename_i hf
    simp only [Result.ok.injEq] at h
    exact Or.inr ⟨hf, h.symm⟩

theorem erase_cases {s s' : PerfectHashSet} {k : Nat} (h : erase s k = .ok s') :
    ∃ i c, Located s k i c ∧
      ((flag s i c = some false ∧ s' = s) ∨
       (flag s i c = some true ∧
          s' = { s with
            inserted := setFlag s i c false,
            inserted_count := (s.inserted_count + 2 ^ 32 - 1) % 2 ^ 32 })) := by
  have hp : isPossibleKey s k = some true := by
    unfold erase at h
    split at h
    · simp at h
    · simp at h
    · assumption
  obtain ⟨i, c, hl⟩ := located_of_isPossibleKey hp
  refine ⟨i, c, hl, ?_⟩
  rw [erase_of_located hl] at h
  split at h
  · simp at h
  · rename_i hf
    simp only [Result.ok.injEq] at h
    exact Or.inl ⟨hf, h.symm⟩
  · rename_i hf
    simp only [Result.ok.injEq] at h
    exact Or.inr ⟨hf, h.symm⟩

theorem insert_sameStructure {s s' : PerfectHashSet} {k : Nat} (h : insert s k = .ok s') :
    SameStructure s s' := by
  obtain ⟨i, c, _, ⟨_, rfl⟩ | ⟨_, rfl⟩⟩ := insert_cases h
  · exact SameStructure.refl _
  · exact setFlag_sameStructure s i c true _

theorem erase_sameStructure {s s' : PerfectHashSet} {k : Nat} (h : erase s k = .ok s') :
    SameStructure s s' := by
  obtain ⟨i, c, _, ⟨_, rfl⟩ | ⟨_, rfl⟩⟩ := erase_cases h
  · exact SameStructure.refl _
  · exact setFlag_sameStructure s i c false _

theorem Reached.sameStructure {allowed : Nat → Prop} {s0 s : PerfectHashSet}
    (h : Reached allowed s0 s) : SameStructure s0 s := by
  induction h with
  | start => exact SameStructure.refl s0
  | insert _ _ hins ih => exact ih.trans (insert_sameStructure hins)
  | erase _ _ hers ih => exact ih.trans (erase_sameStructure hers)

theorem Reached.mono {allowed allowed' : Nat → Prop} {s0 s : PerfectHashSet}
    (h : Reached allowed s0 s)
    (hsub : ∀ k, allowed k → isPossibleKey s0 k = some true → allowed' k) :
    Reached allowed' s0 s := by
  induction h with
  | start => exact Reached.start
  | insert hr ha hins ih =>
    refine Reached.insert ih (hsub _ ha ?_) hins
    obtain ⟨i, c, hl, _⟩ := insert_cases hins
    rw [← hr.sameStructure.isPossibleKey]
    exact isPossibleKey_of_located hl
  | erase hr ha hers ih =>
    refine Reached.erase ih (hsub _ ha ?_) hers
    obtain ⟨i, c, hl, _⟩ := erase_cases hers
    rw [← hr.sameStructure.isPossibleKey]
    exact isPossibleKey_of_located hl

/-- In a state reached after `init(keys)`, every key of `keys` has its slot and
the presence flag of that slot can be read. -/
theorem located_after_init {keys : List Nat} {s0 s : PerfectHashSet} (hb : Built keys s0)
    (hs : SameStructure s0 s) {k : Nat} (hk : k ∈ keys) :
    ∃ i c b, Located s k i c ∧ flag s i c = some b := by
  obtain ⟨i, c, hl⟩ := hb.located_of_mem hk
  obtain ⟨b, hb'⟩ := hs.flag_isSome (hb.flag_false hl)
  exact ⟨i, c, b, hs.located.mpr hl, hb'⟩

theorem has_setFlag_other {s : PerfectHashSet} {k i c : Nat} (hl : Located s k i c)
    (v : Bool) (n : Nat) {j : Nat} (hj : j ≠ k) :
    has { s with inserted := setFlag s i c v, inserted_count := n } j = has s j := by
  have hs := setFlag_sameStructure s i c v n
  cases hp : isPossibleKey s j with
  | none =>
    unfold has
    rw [hs.isPossibleKey j, hp]
  | some b =>
    cases b with
    | false =>
      unfold has
      rw [hs.isPossibleKey j, hp]
    | true =>
      obtain ⟨i', c', hl'⟩ := located_of_isPossibleKey hp
      rw [has_of_located (hs.located.mpr hl'), has_of_located hl']
      apply flag_setFlag_other
      rintro ⟨rfl, rfl⟩
      exact hj (located_inj hl' hl)

theorem countP_flip {U : List Nat} (hnd : U.Nodup) {k : Nat} (hk : k ∈ U)
    (p p' : Nat → Bool) (hpk : p k = false) (hpk' : p' k = true)
    (hoth : ∀ j ∈ U, j ≠ k → p' j = p j) : U.countP p' = U.countP p + 1 := by
  induction U with
  | nil => simp at hk
  | cons x xs ih =>
    rw [List.nodup_cons] at hnd
    rw [List.countP_cons, List.countP_cons]
    rcases List.mem_cons.mp hk with rfl | hk'
    · have hsame : xs.countP p' = xs.countP p := by
        apply List.countP_congr
        intro j hjm
        have hne : j ≠ k := fun hh => hnd.1 (hh ▸ hjm)
        rw [hoth j (List.mem_cons_of_mem _ hjm) hne]
      simp [hpk, hpk', hsame]
    · have hne : x ≠ k := fun hh => hnd.1 (hh ▸ hk')
      have := ih hnd.2 hk' (fun j hjm hjk => hoth j (List.mem_cons_of_mem _ hjm) hjk)
      rw [this, hoth x (List.mem_cons_self _ _) hne]
      omega

theorem presentCount_setFlag_true {s : PerfectHashSet} {U : List Nat} (hnd : U.Nodup)
    {k i c : Nat} (hk : k ∈ U) (hl : Located s k i c) (hf : flag s i c = some false)
    (n : Nat) :
    presentCount { s with inserted := setFlag s i c true, inserted_count := n } U
      = presentCount s U + 1 := by
  unfold presentCount
  apply countP_flip hnd hk
  · rw [has_of_located hl, hf]; rfl
  · rw [has_of_located ((setFlag_sameStructure s i c true n).located.mpr hl),
      flag_setFlag_self true n hf]
    rfl
  · intro j _ hjk
    rw [has_setFlag_other hl true n hjk]

theorem presentCount_setFlag_false {s : PerfectHashSet} {U : List Nat} (hnd : U.Nodup)
    {k i c : Nat} (hk : k ∈ U) (hl : Located s k i c) (hf : flag s i c = some true)
    (n : Nat) :
    presentCount s U
      = presentCount { s with inserted := setFlag s i c false, inserted_count := n } U + 1 := by
  unfold presentCount
  apply countP_flip hnd hk
  · rw [has_of_located ((setFlag_sameStructure s i c false n).located.mpr hl),
      flag_setFlag_self false n hf]
    rfl
  · rw [has_of_located hl, hf]; rfl
  · intro j _ hjk
    rw [has_setFlag_other hl false n hjk]

theorem presentCount_le (s : PerfectHashSet) (U : List Nat) : presentCount s U ≤ U.length :=
  List.countP_le_length _

theorem insert_count {s s' : PerfectHashSet} {U : List Nat} (hnd : U.Nodup)
    (hlen : U.length < 2 ^ 32) {k : Nat} (hk : k ∈ U) (h : insert s k = .ok s')
    (hc : s.inserted_count = presentCount s U) :
    s'.inserted_count = presentCount s' U ∧
    (has s k = some false → s'.inserted_count = s.inserted_count + 1) ∧
    (has s k = some true → s'.inserted_count = s.inserted_count) := by
  obtain ⟨i, c, hl, ⟨hf, rfl⟩ | ⟨hf, rfl⟩⟩ := insert_cases h
  · refine ⟨hc, ?_, fun _ => rfl⟩
    intro hh
    rw [has_of_located hl, hf] at hh
    simp at hh
  · have h1 := presentCount_setFlag_true hnd hk hl hf ((s.inserted_count + 1) % 2 ^ 32)
    have h2 := presentCount_le
      { s with inserted := setFlag s i c true,
               inserted_count := (s.inserted_count + 1) % 2 ^ 32 } U
    have h3 : (s.inserted_count + 1) % 2 ^ 32 = s.inserted_count + 1 :=
      Nat.mod_eq_of_lt (by omega)
    refine ⟨?_, fun _ => h3, ?_⟩
    · rw [h1]
      simp only
      omega
    · intro hh
      rw [has_of_located hl, hf] at hh
      simp at hh

theorem erase_count {s s' : PerfectHashSet} {U : List Nat} (hnd : U.Nodup)
    (hlen : U.length < 2 ^ 32) {k : Nat} (hk : k ∈ U) (h : erase s k = .ok s')
    (hc : s.inserted_count = presentCount s U) :
    s'.inserted_count = presentCount s' U ∧
    (has s k = some true → s'.inserted_count + 1 = s.inserted_count) ∧
    (has s k = some false → s'.inserted_count = s.inserted_count) := by
  obtain ⟨i, c, hl, ⟨hf, rfl⟩ | ⟨hf, rfl⟩⟩ := erase_cases h
  · refine ⟨hc, ?_, fun _ => rfl⟩
    intro hh
    rw [has_of_located hl, hf] at hh
    simp at hh
  · have h1 := presentCount_setFlag_false hnd hk hl hf
      ((s.inserted_count + 2 ^ 32 - 1) % 2 ^ 32)
    have h2 := presentCount_le s U
    have h3 : (s.inserted_count + 2 ^ 32 - 1) % 2 ^ 32 + 1 = s.inserted_count := by
      omega
    refine ⟨?_, fun _ => h3, ?_⟩
    · simp only
      omega
    · intro hh
      rw [has_of_located hl, hf] at hh
      simp at hh

theorem Reached.count_eq {U : List Nat} (hnd : U.Nodup) (hlen : U.length < 2 ^ 32)
    {s0 s : PerfectHashSet} (h : Reached (fun k => k ∈ U) s0 s)
    (h0 : s0.inserted_count = presentCount s0 U) :
    s.inserted_count = presentCount s U := by
  induction h with
  | start => exact h0
  | insert _ ha hins ih => exact (insert_count hnd hlen ha hins ih).1
  | erase _ ha hers ih => exact (erase_count hnd hlen ha hers ih).1

theorem acceptedKeys_nodup {keys : List Nat} (hnd : keys.Nodup) : (acceptedKeys keys).Nodup := by
  unfold acceptedKeys
  split
  · exact hnd
  · rename_i h0
    exact List.nodup_cons.mpr ⟨h0, hnd⟩

theorem acceptedKeys_length_le (keys : List Nat) :
    (acceptedKeys keys).length ≤ keys.length + 1 := by
  unfold acceptedKeys
  split <;> simp

theorem mem_acceptedKeys {keys : List Nat} {k : Nat} (h : k = 0 ∨ k ∈ keys) :
    k ∈ acceptedKeys keys := by
  unfold acceptedKeys
  split
  · rename_i h0
    rcases h with rfl | h
    · exact h0
    · exact h
  · rcases h with rfl | h
    · exact List.mem_cons_self _ _
    · exact List.mem_cons_of_mem _ h

theorem Built.presentCount_zero {keys : List Nat} {s : PerfectHashSet} (hb : Built keys s)
    (U : List Nat) : presentCount s U = 0 := by
  unfold presentCount
  rw [List.countP_eq_zero]
  intro j _
  cases hp : isPossibleKey s j with
  | none =>
    have : has s j = none := by
      unfold has
      rw [hp]
      cases s.first_universal_hash.calculate j <;> rfl
    simp [this]
  | some b =>
    cases b with
    | false =>
      have : has s j = some false := by
        unfold has
        rw [hp]
        cases hc : s.first_universal_hash.calculate j with
        | none =>
          unfold isPossibleKey at hp
          rw [hc] at hp
          simp at hp
        | some _ => rfl
      simp [this]
    | true =>
      obtain ⟨i, c, hl⟩ := located_of_isPossibleKey hp
      rw [has_of_located hl, hb.flag_false hl]
      simp

/-- After `init(keys)` on an object whose count is `0`, in every state reached
by calls of `insert` and `erase` the count is the number of accepted keys that
are present. -/
theorem count_after_init {keys : List Nat} {s0 s : PerfectHashSet} (hb : Built keys s0)
    (h0 : s0.inserted_count = 0) {allowed : Nat → Prop} (h : Reached allowed s0 s) :
    s.inserted_count = presentCount s (acceptedKeys keys) := by
  have hnd := acceptedKeys_nodup hb.nodup
  have hlen : (acceptedKeys keys).length < 2 ^ 32 := by
    have := acceptedKeys_length_le keys
    have := hb.1
    omega
  have hr : Reached (fun k => k ∈ acceptedKeys keys) s0 s := by
    apply h.mono
    intro k _ hp
    obtain ⟨i, c, hl⟩ := located_of_isPossibleKey hp
    exact mem_acceptedKeys (hb.mem_of_located hl)
  apply hr.count_eq hnd hlen
  rw [h0, hb.presentCount_zero]

theorem secondTableLoop_noException (index : Nat) (elements : List Nat) (size : Nat) :
    ∀ (g : Generator) (s : PerfectHashSet),
      NoException (secondTableLoop index elements size g s) := by
  intro g
  induction g with
  | nil => intro s; simp [secondTableLoop, NoException]
  | cons smp g ih =>
    intro s
    simp only [secondTableLoop]
    split
    · simp [NoException]
    · exact ih _
    · split <;> simp [NoException]

theorem initTable_no_multiple (index : Nat) (g : Generator) (s : PerfectHashSet)
    (hnd : ∀ b, s.hashes[index]? = some b → b.Nodup) (st : PerfectHashSet × Generator) :
    initTable index g s ≠ .multipleKeyException st := by
  unfold initTable
  split
  · simp
  · rename_i elements hel
    split
    · have hpair : hasEqualPair elements = false :=
        (hasEqualPair_eq_false_iff elements).mpr (hnd elements hel)
      simp only [hpair, Bool.false_eq_true, if_false]
      split
      · intro hh
        have := secondTableLoop_noException index elements
          ((elements.length * elements.length) % 2 ^ 64) g
          { s with
            inserted := s.inserted.set index
              (List.replicate ((elements.length * elements.length) % 2 ^ 64) false),
            hashes := s.hashes.set index
              (List.replicate ((elements.length * elements.length) % 2 ^ 64) 0) }
        rw [hh] at this
        exact this
      · simp
    · simp

theorem initTable_no_impossible (index : Nat) (g : Generator) (s : PerfectHashSet)
    (st : PerfectHashSet × Generator) :
    initTable index g s ≠ .impossibleKeyException st := by
  unfold initTable
  split
  · simp
  · rename_i elements hel
    split
    · simp only
      split
      · simp
      · split
        · intro hh
          have := secondTableLoop_noException index elements
            ((elements.length * elements.length) % 2 ^ 64) g
            { s with
              inserted := s.inserted.set index
                (List.replicate ((elements.length * elements.length) % 2 ^ 64) false),
              hashes := s.hashes.set index
                (List.replicate ((elements.length * elements.length) % 2 ^ 64) 0) }
          rw [hh] at this
          exact this
        · simp
    · simp

theorem secondTablesLoop_no_multiple :
    ∀ (is : List Nat) (g : Generator) (s : PerfectHashSet), is.Nodup →
      (∀ i ∈ is, ∀ b, s.hashes[i]? = some b → b.Nodup) →
      ∀ st, secondTablesLoop is g s ≠ .multipleKeyException st := by
  intro is
  induction is with
  | nil => intro g s _ _ st; simp [secondTablesLoop]
  | cons i rest ih =>
    intro g s hnd hb st
    rw [List.nodup_cons] at hnd
    have h1 := initTable_no_multiple i g s (hb i (List.mem_cons_self _ _))
    simp only [secondTablesLoop]
    split
    · rename_i s1 g1 hinit
      obtain ⟨elements, h2, table, flags, _, _, _, e4, _⟩ := initTable_spec i g s s1 g1 hinit
      refine ih g1 s1 hnd.2 ?_ st
      intro j hj b hjb
      have hne : i ≠ j := by
        intro hh
        subst hh
        exact hnd.1 hj
      rw [e4, getElem?_set_of_ne _ _ hne] at hjb
      exact hb j (List.mem_cons_of_mem _ hj) b hjb
    · rename_i st' hinit
      exact absurd hinit (h1 st')
    all_goals simp

theorem secondTablesLoop_no_impossible :
    ∀ (is : List Nat) (g : Generator) (s : PerfectHashSet) (st : PerfectHashSet × Generator),
      secondTablesLoop is g s ≠ .impossibleKeyException st := by
  intro is
  induction is with
  | nil => intro g s st; simp [secondTablesLoop]
  | cons i rest ih =>
    intro g s st
    simp only [secondTablesLoop]
    split
    · exact ih _ _ st
    · simp
    · rename_i st' hinit
      exact absurd hinit (initTable_no_impossible i g s st')
    all_goals simp

theorem firstTableLoop_no_impossible (keys : List Nat) :
    ∀ (g : Generator) (s : PerfectHashSet) (st : PerfectHashSet × Generator),
      firstTableLoop keys g s ≠ .impossibleKeyException st := by
  intro g
  induction g with
  | nil => intro s st; simp [firstTableLoop]
  | cons smp g ih =>
    intro s st
    unfold firstTableLoop
    split
    · simp
    · simp only
      split
      · simp
      · split
        · simp
        · split
          · simp
          · exact ih _ st

theorem init_no_impossible (g : Generator) (keys : List Nat) (s : PerfectHashSet)
    (st : PerfectHashSet × Generator) :
    init g keys s ≠ .impossibleKeyException st := by
  unfold init
  split
  · simp
  · simp only
    split
    · exact secondTablesLoop_no_impossible _ _ _ st
    · simp
    · rename_i st' hfirst
      exact absurd hfirst (firstTableLoop_no_impossible keys g _ st')
    all_goals simp

theorem init_no_multiple (g : Generator) (keys : List Nat) (s : PerfectHashSet)
    (hnd : keys.Nodup) (st : PerfectHashSet × Generator) :
    init g keys s ≠ .multipleKeyException st := by
  unfold init
  split
  · simp
  · rename_i hlen
    have hmod : keys.length % 2 ^ 32 = keys.length := Nat.mod_eq_of_lt (by omega)
    simp only [hmod]
    split
    · rename_i s2 g2 hfirst
      unfold initFirstTable at hfirst
      obtain ⟨a1, _, _, _, _, a6, a7, _, _⟩ :=
        firstTableLoop_spec keys g _ s2 g2 (by simp) hfirst
      simp only at a1 a6 a7
      unfold initSecondTables
      refine secondTablesLoop_no_multiple _ g2 s2 (List.nodup_range _) ?_ st
      intro i hi b hb
      rw [List.mem_range, a1] at hi
      rw [a7 i hi] at hb
      simp only [Option.some.injEq] at hb
      subst hb
      exact bucketOf_nodup _ hnd i
    · rename_i st' hfirst
      unfold initFirstTable at hfirst
      exact absurd hfirst (firstTableLoop_no_multiple keys hnd g _ (by simp) st')
    all_goals simp

theorem has_insert_other {s s' : PerfectHashSet} {k j : Nat} (h : insert s k = .ok s')
    (hj : j ≠ k) : has s' j = has s j := by
  obtain ⟨i, c, hl, ⟨_, rfl⟩ | ⟨_, rfl⟩⟩ := insert_cases h
  · rfl
  · exact has_setFlag_other hl true _ hj

theorem insert_ok_after_init {keys : List Nat} {s0 s : PerfectHashSet} (hb : Built keys s0)
    (hs : SameStructure s0 s) {k : Nat} (hk : k ∈ keys) :
    ∃ s', insert s k = .ok s' ∧ has s' k = some true := by
  obtain ⟨i, c, b, hl, hf⟩ := located_after_init hb hs hk
  rw [insert_of_located hl, hf]
  cases b with
  | true => exact ⟨s, rfl, by rw [has_of_located hl, hf]⟩
  | false =>
    refine ⟨_, rfl, ?_⟩
    rw [has_of_located ((setFlag_sameStructure s i c true _).located.mpr hl)]
    exact flag_setFlag_self true _ hf

theorem erase_ok_after_init {keys : List Nat} {s0 s : PerfectHashSet} (hb : Built keys s0)
    (hs : SameStructure s0 s) {k : Nat} (hk : k ∈ keys) :
    ∃ s', erase s k = .ok s' ∧ has s' k = some false ∧
      (has s k = some true ∨ has s k = some false) := by
  obtain ⟨i, c, b, hl, hf⟩ := located_after_init hb hs hk
  rw [erase_of_located hl, hf, has_of_located hl, hf]
  cases b with
  | false => exact ⟨s, rfl, by rw [has_of_located hl, hf], Or.inr rfl⟩
  | true =>
    refine ⟨_, rfl, ?_, Or.inl rfl⟩
    rw [has_of_located ((setFlag_sameStructure s i c false _).located.mpr hl)]
    exact flag_setFlag_self false _ hf

theorem insertAll_size {keys : List Nat} {s0 : PerfectHashSet} (hb : Built keys s0)
    (h0 : s0.inserted_count = presentCount s0 keys) :
    ∀ (L : List Nat) (s : PerfectHashSet), Reached (fun k => k ∈ keys) s0 s → L.Nodup →
      (∀ k ∈ L, k ∈ keys) → (∀ k ∈ L, has s k = some false) →
      ∃ s', insertAll s L = .ok s' ∧ s'.inserted_count = s.inserted_count + L.length := by
  have hlen : keys.length < 2 ^ 32 := by
    have := hb.1
    omega
  intro L
  induction L with
  | nil => intro s _ _ _ _; exact ⟨s, rfl, rfl⟩
  | cons k L ih =>
    intro s hr hnd hsub hfalse
    rw [List.nodup_cons] at hnd
    have hk : k ∈ keys := hsub k (List.mem_cons_self _ _)
    obtain ⟨s1, hins, _⟩ := insert_ok_after_init hb hr.sameStructure hk
    have hc := hr.count_eq hb.nodup hlen h0
    have h1 := (insert_count hb.nodup hlen hk hins hc).2.1 (hfalse k (List.mem_cons_self _ _))
    obtain ⟨s', h2, h3⟩ := ih s1 (Reached.insert hr hk hins) hnd.2
      (fun j hj => hsub j (List.mem_cons_of_mem _ hj))
      (fun j hj => by
        have hne : j ≠ k := fun hh => hnd.1 (hh ▸ hj)
        rw [has_insert_other hins hne]
        exact hfalse j (List.mem_cons_of_mem _ hj))
    refine ⟨s', ?_, ?_⟩
    · simp only [insertAll, hins]
      exact h2
    · rw [h3, h1, List.length_cons]
      omega

theorem Built.has_false {keys : List Nat} {s : PerfectHashSet} (hb : Built keys s)
    {k : Nat} (hk : k ∈ keys) : has s k = some false := by
  obtain ⟨i, c, hl⟩ := hb.located_of_mem hk
  rw [has_of_located hl, hb.flag_false hl]

theorem pushKeys_single_bucket (h : UniversalHash) :
    ∀ (keys b : List Nat) (rest : List (List Nat)),
      (∀ k ∈ keys, h.calculate k = some 0) →
      pushKeys h keys (b :: rest) = some ((b ++ keys) :: rest) := by
  intro keys
  induction keys with
  | nil => intro b rest _; simp [pushKeys]
  | cons k ks ih =>
    intro b rest hall
    have hk := hall k (List.mem_cons_self _ _)
    simp only [pushKeys, hk, List.getElem?_cons_zero, List.set_cons_zero]
    rw [ih _ _ (fun j hj => hall j (List.mem_cons_of_mem _ hj))]
    simp

theorem foldl_summary_replicate_nil (n x : Nat) (hx : x < 2 ^ 32) :
    (List.replicate n ([] : List Nat)).foldl
      (fun summary b => (summary + (b.length * b.length) % 2 ^ 64) % 2 ^ 64 % 2 ^ 32) x = x := by
  induction n with
  | zero => rfl
  | succ n ih =>
    rw [List.replicate_succ, List.foldl_cons]
    have : (x + (([] : List Nat).length * ([] : List Nat).length) % 2 ^ 64) % 2 ^ 64 % 2 ^ 32 = x := by
      simp only [List.length_nil, Nat.mul_zero, Nat.zero_mod, Nat.add_zero]
      omega
    rw [this, ih]

theorem summaryOf_single_bucket (b : List Nat) (n : Nat) :
    summaryOf (b :: List.replicate n []) = (b.length * b.length) % 2 ^ 64 % 2 ^ 64 % 2 ^ 32 := by
  unfold summaryOf
  rw [List.foldl_cons, foldl_summary_replicate_nil]
  · simp
  · exact Nat.mod_lt _ (by norm_num)

theorem firstTableLoop_single_bucket (keys : List Nat) (smp : Nat × Nat) (g : Generator)
    (s : PerfectHashSet) (n : Nat) (hn : s.keys_count = n + 1)
    (hh : s.hashes = List.replicate (n + 1) [])
    (hcalc : ∀ k ∈ keys, (makeRandomHash smp (n + 1)).calculate k = some 0)
    (hnd : keys.Nodup)
    (hgood : (keys.length * keys.length) % 2 ^ 64 % 2 ^ 64 % 2 ^ 32 ≤ (3 * (n + 1)) % 2 ^ 32) :
    firstTableLoop keys (smp :: g) s = .ok
      ({ s with first_universal_hash := makeRandomHash smp (n + 1),
                hashes := keys :: List.replicate n [] }, g) := by
  obtain ⟨h1, sec, kc, ic, hs, ins⟩ := s
  simp only at hn hh
  subst hn hh
  unfold firstTableLoop
  have hclr := clearBuckets_eq (List.replicate (n + 1) ([] : List Nat))
  rw [List.length_replicate] at hclr
  simp only [hclr]
  rw [List.replicate_succ, pushKeys_single_bucket _ _ _ _ hcalc]
  simp only [List.nil_append]
  have hcol : hasNaiveCollisions
      { first_universal_hash := makeRandomHash smp (n + 1), second_universal_hashes := sec,
        keys_count := n + 1, inserted_count := ic, hashes := keys :: List.replicate n [],
        inserted := ins } = false := by
    rw [hasNaiveCollisions_eq _ (by simp)]
    simp only [List.any_cons, bucketCollision_of_nodup keys hnd, Bool.false_or]
    rw [Bool.eq_false_iff]
    intro hany
    rw [List.any_eq_true] at hany
    obtain ⟨b, hb, hbc⟩ := hany
    rw [List.eq_of_mem_replicate hb] at hbc
    simp [bucketCollision, adjacentEqual] at hbc
  have hg : isGoodFirstHash
      { first_universal_hash := makeRandomHash smp (n + 1), second_universal_hashes := sec,
        keys_count := n + 1, inserted_count := ic, hashes := keys :: List.replicate n [],
        inserted := ins } = true := by
    rw [isGoodFirstHash_eq _ (by simp)]
    simp only [summaryOf_single_bucket]
    exact decide_eq_true hgood
  rw [hcol, hg]
  simp

theorem unbalancedKeys_length : unbalancedKeys.length = 65536 := by
  simp [unbalancedKeys]

theorem unbalancedKeys_nodup : unbalancedKeys.Nodup := by
  unfold unbalancedKeys
  apply List.Nodup.map _ (List.nodup_range _)
  intro a b hab
  simp only at hab
  omega

theorem unbalancedKeys_calculate :
    ∀ k ∈ unbalancedKeys, (makeRandomHash (1, 0) (65535 + 1)).calculate k = some 0 := by
  intro k hk
  unfold unbalancedKeys at hk
  rw [List.mem_map] at hk
  obtain ⟨i, hi, rfl⟩ := hk
  rw [List.mem_range] at hi
  have h1 : i * 65536 % 18446744073709551616 = i * 65536 := Nat.mod_eq_of_lt (by omega)
  have h2 : i * 65536 % 4294967311 = i * 65536 := Nat.mod_eq_of_lt (by omega)
  have h3 : i * 65536 % 65536 = 0 := Nat.mul_mod_left i 65536
  simp only [makeRandomHash, UniversalHash.calculate, modulo]
  norm_num
  rw [h1, h2, h3]

theorem unbalanced_run :
    initFirstTable unbalancedKeys [(1, 0)] unbalancedStart = .ok
      ({ unbalancedStart with
          inserted := List.replicate 65536 [],
          first_universal_hash := ⟨1, 0, 65536⟩,
          hashes := unbalancedKeys :: List.replicate 65535 [] }, []) := by
  unfold initFirstTable
  rw [firstTableLoop_single_bucket unbalancedKeys (1, 0) [] _ 65535 rfl rfl
    unbalancedKeys_calculate unbalancedKeys_nodup
    (by rw [unbalancedKeys_length]; norm_num)]
  rfl

theorem pairBuilt_eq :
    init pairGenerator [1, 3] (construct ⟨0, 0, 0⟩ 0) = .ok (pairBuilt, []) := by
  decide

theorem quadBuilt_eq :
    init quadGenerator [5, 17, 42, 1000] (construct ⟨0, 0, 0⟩ 0) = .ok (quadBuilt, []) := by
  decide

theorem unbalancedResult_length : unbalancedResult.hashes.length = 65536 := by
  show (unbalancedKeys :: List.replicate 65535 []).length = 65536
  rw [List.length_cons, List.length_replicate]

theorem unbalancedResult_good : isGoodFirstHash unbalancedResult = true := by
  rw [isGoodFirstHash_eq _ unbalancedResult_length]
  show decide (summaryOf (unbalancedKeys :: List.replicate 65535 []) ≤ (3 * 65536) % 2 ^ 32)
    = true
  rw [summaryOf_single_bucket, unbalancedKeys_length]
  norm_num

theorem sumSquares_cons (b : List Nat) (rest : List (List Nat)) :
    sumSquares (b :: rest) = b.length * b.length + sumSquares rest := by
  simp [sumSquares]

theorem sumSquares_replicate_nil (n : Nat) : sumSquares (List.replicate n []) = 0 := by
  induction n with
  | zero => rfl
  | succ n ih => rw [List.replicate_succ, sumSquares_cons, ih]; rfl

theorem unbalancedResult_sumSquares : sumSquares unbalancedResult.hashes = 4294967296 := by
  show sumSquares (unbalancedKeys :: List.replicate 65535 []) = 4294967296
  rw [sumSquares_cons, sumSquares_replicate_nil, unbalancedKeys_length]

theorem sum_indicator_le_one (c : Option Nat) :
    ∀ (is : List Nat), is.Nodup →
      (is.map (fun i => if c = some i then 1 else 0)).sum ≤ 1 := by
  intro is
  induction is with
  | nil => intro _; simp
  | cons i rest ih =>
    intro hnd
    rw [List.nodup_cons] at hnd
    rw [List.map_cons, List.sum_cons]
    by_cases hc : c = some i
    · have hzero : (rest.map (fun j => if c = some j then 1 else 0)).sum = 0 := by
        apply List.sum_eq_zero
        intro x hx
        rw [List.mem_map] at hx
        obtain ⟨j, hj, rfl⟩ := hx
        have hne : c ≠ some j := by
          rw [hc]
          intro hh
          exact hnd.1 ((Option.some.inj hh) ▸ hj)
        simp [hne]
      rw [if_pos hc, hzero]
    · rw [if_neg hc]
      have := ih hnd.2
      omega

theorem sum_map_add (f g : Nat → Nat) :
    ∀ (is : List Nat), (is.map (fun i => f i + g i)).sum = (is.map f).sum + (is.map g).sum
  | [] => rfl
  | i :: rest => by
    simp only [List.map_cons, List.sum_cons, sum_map_add f g rest]
    omega

theorem sum_bucket_lengths_le (h : UniversalHash) (is : List Nat) (hnd : is.Nodup) :
    ∀ (keys : List Nat), (is.map (fun i => (bucketOf h keys i).length)).sum ≤ keys.length := by
  intro keys
  induction keys with
  | nil =>
    apply Nat.le_of_eq
    apply List.sum_eq_zero
    intro x hx
    rw [List.mem_map] at hx
    obtain ⟨j, _, rfl⟩ := hx
    rfl
  | cons k ks ih =>
    have hfun : (fun i => (bucketOf h (k :: ks) i).length) =
        (fun i => (if h.calculate k = some i then 1 else 0) + (bucketOf h ks i).length) := by
      funext i
      unfold bucketOf
      rw [List.filter_cons]
      by_cases hc : h.calculate k = some i
      · simp [hc]; omega
      · simp [hc]
    rw [hfun, sum_map_add, List.length_cons]
    have := sum_indicator_le_one (h.calculate k) is hnd
    omega

theorem sumSquares_le_sq (hs : List (List Nat)) :
    sumSquares hs ≤ (hs.map List.length).sum * (hs.map List.length).sum := by
  induction hs with
  | nil => simp [sumSquares]
  | cons b rest ih =>
    rw [sumSquares_cons, List.map_cons, List.sum_cons]
    nlinarith [ih, Nat.zero_le (b.length * (rest.map List.length).sum)]

theorem foldl_summary_exact :
    ∀ (hs : List (List Nat)) (x : Nat), x + sumSquares hs < 2 ^ 32 →
      hs.foldl (fun summary b => (summary + (b.length * b.length) % 2 ^ 64) % 2 ^ 64 % 2 ^ 32) x
        = x + sumSquares hs := by
  intro hs
  induction hs with
  | nil => intro x _; simp [sumSquares]
  | cons b rest ih =>
    intro x hx
    rw [sumSquares_cons] at hx
    rw [List.foldl_cons, sumSquares_cons]
    have hstep : (x + (b.length * b.length) % 2 ^ 64) % 2 ^ 64 % 2 ^ 32
        = x + b.length * b.length := by
      generalize b.length * b.length = q at hx ⊢
      omega
    rw [hstep, ih _ (by omega)]
    omega

theorem summaryOf_exact (hs : List (List Nat)) (h : sumSquares hs < 2 ^ 32) :
    summaryOf hs = sumSquares hs := by
  unfold summaryOf
  rw [foldl_summary_exact hs 0 (by omega)]
  omega

theorem count_true_set :
    ∀ (flags : List Bool) (c : Nat) (b v : Bool), flags[c]? = some b →
      (flags.set c v).count true + (if b then 1 else 0)
        = flags.count true + (if v then 1 else 0) := by
  intro flags
  induction flags with
  | nil => intro c b v h; simp at h
  | cons x rest ih =>
    intro c b v h
    cases c with
    | zero =>
      simp only [List.getElem?_cons_zero, Option.some.injEq] at h
      subst h
      rw [List.set_cons_zero, List.count_cons, List.count_cons]
      cases x <;> cases v <;> simp
    | succ c =>
      simp only [List.getElem?_cons_succ] at h
      rw [List.set_cons_succ, List.count_cons, List.count_cons]
      have := ih c b v h
      omega

theorem sum_map_set (f : List Bool → Nat) :
    ∀ (l : List (List Bool)) (i : Nat) (x y : List Bool), l[i]? = some x →
      ((l.set i y).map f).sum + f x = (l.map f).sum + f y := by
  intro l
  induction l with
  | nil => intro i x y h; simp at h
  | cons z rest ih =>
    intro i x y h
    cases i with
    | zero =>
      simp only [List.getElem?_cons_zero, Option.some.injEq] at h
      subst h
      simp only [List.set_cons_zero, List.map_cons, List.sum_cons]
      omega
    | succ i =>
      simp only [List.getElem?_cons_succ] at h
      simp only [List.set_cons_succ, List.map_cons, List.sum_cons]
      have := ih i x y h
      omega

theorem trueFlags_setFlag {s : PerfectHashSet} {i c : Nat} {b : Bool} (v : Bool) (n : Nat)
    (hb : flag s i c = some b) :
    trueFlags { s with inserted := setFlag s i c v, inserted_count := n }
        + (if b then 1 else 0)
      = trueFlags s + (if v then 1 else 0) := by
  unfold flag at hb
  split at hb
  · simp at hb
  · rename_i flags hfl
    unfold trueFlags
    simp only [setFlag, List.getD_eq_getElem?_getD, hfl, Option.getD_some]
    have h1 := sum_map_set (fun flags => flags.count true) s.inserted i flags
      (flags.set c v) hfl
    have h2 := count_true_set flags c b v hb
    simp only at h1
    omega

theorem Built.trueFlags_zero {keys : List Nat} {s : PerfectHashSet} (hb : Built keys s) :
    trueFlags s = 0 := by
  obtain ⟨_, _, _, _, hil, _, hbk⟩ := hb
  unfold trueFlags
  apply List.sum_eq_zero
  intro x hx
  rw [List.mem_map] at hx
  obtain ⟨flags, hfl, rfl⟩ := hx
  obtain ⟨i, hi, rfl⟩ := List.getElem_of_mem hfl
  obtain ⟨h2, table, flags', _, _, a3, _, a4, _⟩ := hbk i (by omega)
  rw [List.getElem?_eq_getElem hi] at a3
  simp only [Option.some.injEq] at a3
  rw [a3, a4]
  apply List.count_eq_zero_of_not_mem
  intro hmem
  have := List.eq_of_mem_replicate hmem
  simp at this

theorem pushKeys_ne_none (h : UniversalHash) :
    ∀ (keys : List Nat) (hs : List (List Nat)), h.p = hs.length →
      (keys ≠ [] → hs.length ≠ 0) → ∃ hs', pushKeys h keys hs = some hs' := by
  intro keys
  induction keys with
  | nil => intro hs _ _; exact ⟨hs, rfl⟩
  | cons k ks ih =>
    intro hs hp hne
    have hpos : h.p ≠ 0 := by rw [hp]; exact hne (by simp)
    obtain ⟨idx, hidx⟩ := calculate_ne_none hpos k
    have hlt : idx < hs.length := by rw [← hp]; exact calculate_lt hidx
    simp only [pushKeys, hidx, List.getElem?_eq_getElem hlt]
    apply ih
    · rw [List.length_set]; exact hp
    · intro _
      rw [List.length_set]
      exact hne (by simp)

theorem firstTableLoop_defined (keys : List Nat) :
    ∀ (g : Generator) (s : PerfectHashSet), s.hashes.length = s.keys_count →
      s.keys_count = keys.length → keys.length < 2 ^ 32 →
      firstTableLoop keys g s ≠ .undefinedBehaviour := by
  intro g
  induction g with
  | nil => intro s _ _ _; simp [firstTableLoop]
  | cons smp g ih =>
    intro s hlen hkc hsmall
    unfold firstTableLoop
    have hclr := clearBuckets_eq s.hashes
    rw [hlen] at hclr
    rw [hclr]
    simp only
    have hp : (makeRandomHash smp s.keys_count).p
        = (List.replicate s.keys_count ([] : List Nat)).length := by
      simp only [makeRandomHash, List.length_replicate]
      rw [hkc]
      exact Nat.mod_eq_of_lt hsmall
    obtain ⟨hs, hpk⟩ := pushKeys_ne_none _ keys _ hp (by
      intro hne
      rw [List.length_replicate, hkc]
      exact fun hh => hne (List.length_eq_zero.mp hh))
    rw [hpk]
    simp only
    obtain ⟨hl, _⟩ := firstTable_step hpk
    split
    · simp
    · split
      · simp
      · exact ih _ (by simpa using hl) hkc hsmall

theorem tryHash_ne_none (h : UniversalHash) :
    ∀ (es : List Nat) (used : List Bool), h.p ≤ used.length → (es ≠ [] → h.p ≠ 0) →
      tryHash h es used ≠ none := by
  intro es
  induction es with
  | nil => intro used _ _; simp [tryHash]
  | cons e es ih =>
    intro used hp hne
    have hpos : h.p ≠ 0 := hne (by simp)
    obtain ⟨c, hc⟩ := calculate_ne_none hpos e
    have hlt : c < used.length := lt_of_lt_of_le (calculate_lt hc) hp
    simp only [tryHash, hc, List.getElem?_eq_getElem hlt]
    split
    · rename_i hh; simp at hh
    · simp
    · apply ih
      · rw [List.length_set]; exact hp
      · intro _; exact hpos

theorem fillTable_ne_none (h : UniversalHash) :
    ∀ (es : List Nat) (table : List Nat), h.p ≤ table.length → (es ≠ [] → h.p ≠ 0) →
      fillTable h es table ≠ none := by
  intro es
  induction es with
  | nil => intro table _ _; simp [fillTable]
  | cons e es ih =>
    intro table hp hne
    have hpos : h.p ≠ 0 := hne (by simp)
    obtain ⟨c, hc⟩ := calculate_ne_none hpos e
    have hlt : c < table.length := lt_of_lt_of_le (calculate_lt hc) hp
    simp only [fillTable, hc, hlt, if_true]
    apply ih
    · rw [List.length_set]; exact hp
    · intro _; exact hpos

theorem secondTableLoop_defined (index : Nat) (elements : List Nat) (size : Nat)
    (hsize : elements ≠ [] → size % 2 ^ 32 ≠ 0) :
    ∀ (g : Generator) (s : PerfectHashSet),
      s.hashes[index]? = some (List.replicate size 0) →
      secondTableLoop index elements size g s ≠ .undefinedBehaviour := by
  intro g
  induction g with
  | nil => intro s _; simp [secondTableLoop]
  | cons smp g ih =>
    intro s hget
    have hp : (makeRandomHash smp size).p ≤ size := by
      simp only [makeRandomHash]
      exact Nat.mod_le _ _
    have hne : elements ≠ [] → (makeRandomHash smp size).p ≠ 0 := hsize
    simp only [secondTableLoop]
    split
    · rename_i htry
      exact absurd htry (tryHash_ne_none _ _ _ (by simpa using hp) hne)
    · exact ih _ (by simpa using hget)
    · have hD : s.hashes.getD index [] = List.replicate size 0 := by
        rw [List.getD_eq_getElem?_getD, hget]; rfl
      simp only [hD]
      split
      · rename_i hfill
        exact absurd hfill (fillTable_ne_none _ _ _ (by simpa using hp) hne)
      · simp

theorem sq_mod_ne_zero {m : Nat} (hpos : m ≠ 0) (hm : m < 65536) :
    (m * m) % 2 ^ 64 % 2 ^ 32 ≠ 0 := by
  have h1 : m * m < 65536 * 65536 := Nat.mul_lt_mul'' hm hm
  have h2 : 1 ≤ m * m := Nat.mul_pos (Nat.pos_of_ne_zero hpos) (Nat.pos_of_ne_zero hpos)
  generalize m * m = q at h1 h2
  omega

theorem initTable_defined (index : Nat) (g : Generator) (s : PerfectHashSet)
    (h1 : index < s.hashes.length) (h2 : index < s.inserted.length)
    (h3 : index < s.second_universal_hashes.length)
    (hsmall : ∀ b, s.hashes[index]? = some b → b.length < 65536) :
    initTable index g s ≠ .undefinedBehaviour := by
  unfold initTable
  rw [List.getElem?_eq_getElem h1]
  simp only [h2, h3, if_true]
  split
  · simp
  · apply secondTableLoop_defined
    · intro hne
      apply sq_mod_ne_zero
      · exact fun hh => hne (List.length_eq_zero.mp hh)
      · exact hsmall _ (List.getElem?_eq_getElem h1)
    · simp [h1]

theorem secondTablesLoop_defined :
    ∀ (is : List Nat) (g : Generator) (s : PerfectHashSet), is.Nodup →
      (∀ i ∈ is, i < s.hashes.length ∧ i < s.inserted.length ∧
        i < s.second_universal_hashes.length ∧
        ∀ b, s.hashes[i]? = some b → b.length < 65536) →
      secondTablesLoop is g s ≠ .undefinedBehaviour := by
  intro is
  induction is with
  | nil => intro g s _ _; simp [secondTablesLoop]
  | cons i rest ih =>
    intro g s hnd hall
    rw [List.nodup_cons] at hnd
    obtain ⟨a1, a2, a3, a4⟩ := hall i (List.mem_cons_self _ _)
    have hdef := initTable_defined i g s a1 a2 a3 a4
    simp only [secondTablesLoop]
    split
    · rename_i s1 g1 hinit
      obtain ⟨elements, h2, table, flags, _, _, _, e4, e5, e6, _⟩ :=
        initTable_spec i g s s1 g1 hinit
      apply ih g1 s1 hnd.2
      intro j hj
      obtain ⟨b1, b2, b3, b4⟩ := hall j (List.mem_cons_of_mem _ hj)
      have hne : i ≠ j := by
        intro hh
        subst hh
        exact hnd.1 hj
      refine ⟨by rw [e4, List.length_set]; exact b1, by rw [e5, List.length_set]; exact b2,
        by rw [e6, List.length_set]; exact b3, ?_⟩
      intro b hb
      rw [e4, getElem?_set_of_ne _ _ hne] at hb
      exact b4 b hb
    · simp
    · simp
    · rename_i hinit
      exact absurd hinit hdef
    · simp

/-- With fewer than `65536` keys no step of `init` is undefined: the call
returns, throws `MultipleKeyException`, or is still in one of its two retry
loops when the samples are used up. -/
theorem init_defined_of_small (g : Generator) (keys : List Nat) (s : PerfectHashSet)
    (hsmall : keys.length < 65536) : init g keys s ≠ .undefinedBehaviour := by
  unfold init
  rw [if_neg (by omega)]
  have hmod : keys.length % 2 ^ 32 = keys.length := Nat.mod_eq_of_lt (by omega)
  simp only [hmod]
  split
  · rename_i s2 g2 hfirst
    unfold initFirstTable at hfirst
    obtain ⟨a1, a2, _, a4, _, a6, a7, _, _⟩ :=
      firstTableLoop_spec keys g _ s2 g2 (by simp) hfirst
    simp only at a1 a2 a4 a6 a7
    unfold initSecondTables
    apply secondTablesLoop_defined _ g2 s2 (List.nodup_range _)
    intro i hi
    rw [List.mem_range, a1] at hi
    refine ⟨by rw [a6]; exact hi, by rw [a2]; simpa using hi, by rw [a4]; simpa using hi, ?_⟩
    intro b hb
    rw [a7 i hi] at hb
    simp only [Option.some.injEq] at hb
    subst hb
    exact lt_of_le_of_lt (List.length_filter_le _ _) hsmall
  · simp
  · simp
  · rename_i hfirst
    unfold initFirstTable at hfirst
    exact absurd hfirst (firstTableLoop_defined keys g _ (by simp) (by simp) (by omega))
  · simp

theorem has_erase_other {s s' : PerfectHashSet} {k j : Nat} (h : erase s k = .ok s')
    (hj : j ≠ k) : has s' j = has s j := by
  obtain ⟨i, c, hl, ⟨_, rfl⟩ | ⟨_, rfl⟩⟩ := erase_cases h
  · rfl
  · exact has_setFlag_other hl false _ hj

theorem insert_again {s s' : PerfectHashSet} {k : Nat} (h : insert s k = .ok s') :
    insert s' k = .ok s' := by
  obtain ⟨i, c, hl, ⟨_, rfl⟩ | ⟨hf, rfl⟩⟩ := insert_cases h
  · exact h
  · have hl' := (setFlag_sameStructure s i c true
      ((s.inserted_count + 1) % 2 ^ 32)).located.mpr hl
    rw [insert_of_located hl', flag_setFlag_self true _ hf]

theorem has_defined_after_init {keys : List Nat} {s0 s : PerfectHashSet} (hb : Built keys s0)
    (hne : keys ≠ []) (hs : SameStructure s0 s) (k : Nat) :
    (∃ b, isPossibleKey s k = some b) ∧ ∃ b, has s k = some b := by
  obtain ⟨b, hp⟩ := hb.isPossibleKey_defined hne k
  have hp' : isPossibleKey s k = some b := by rw [hs.isPossibleKey]; exact hp
  refine ⟨⟨b, hp'⟩, ?_⟩
  cases b with
  | false =>
    obtain ⟨i, hi, _⟩ := hb.first_defined hne k
    refine ⟨false, ?_⟩
    unfold has
    rw [hs.1, hi, hp']
  | true =>
    obtain ⟨i, c, hl⟩ := located_of_isPossibleKey hp
    obtain ⟨b', hb'⟩ := hs.flag_isSome (hb.flag_false hl)
    exact ⟨b', by rw [has_of_located (hs.located.mpr hl)]; exact hb'⟩

theorem not_nodup_of_bucketCollision {b : List Nat} (h : bucketCollision b = true) :
    ¬ b.Nodup := by
  intro hnd
  rw [bucketCollision_of_nodup b hnd] at h
  simp at h

theorem repeated_of_not_nodup : ∀ {b : List Nat}, ¬ b.Nodup →
    ∃ j k : Nat, j < k ∧ ∃ v, b[j]? = some v ∧ b[k]? = some v
  | [], h => absurd List.nodup_nil h
  | x :: rest, h => by
    rw [List.nodup_cons, not_and_or, not_not] at h
    rcases h with h | h
    · obtain ⟨k, hk, hv⟩ := List.getElem_of_mem h
      exact ⟨0, k + 1, Nat.succ_pos k, x, List.getElem?_cons_zero, by
        rw [List.getElem?_cons_succ, List.getElem?_eq_getElem hk, hv]⟩
    · obtain ⟨j, k, hjk, v, hj, hk⟩ := repeated_of_not_nodup h
      exact ⟨j + 1, k + 1, Nat.succ_lt_succ hjk, v, by simpa using hj, by simpa using hk⟩

theorem sum_indicator_eq_one (c : Option Nat) :
    ∀ (is : List Nat), is.Nodup → ∀ j ∈ is, c = some j →
      (is.map (fun i => if c = some i then 1 else 0)).sum = 1 := by
  intro is hnd j hj hc
  have hle := sum_indicator_le_one c is hnd
  have hge : 1 ≤ (is.map (fun i => if c = some i then 1 else 0)).sum := by
    have hmem : (1 : Nat) ∈ is.map (fun i => if c = some i then 1 else 0) := by
      rw [List.mem_map]
      exact ⟨j, hj, by simp [hc]⟩
    exact List.single_le_sum (fun _ _ => Nat.zero_le _) 1 hmem
  omega

theorem sum_bucket_lengths_eq (h : UniversalHash) (is : List Nat) (hnd : is.Nodup) :
    ∀ (keys : List Nat), (∀ k ∈ keys, ∃ i ∈ is, h.calculate k = some i) →
      (is.map (fun i => (bucketOf h keys i).length)).sum = keys.length := by
  intro keys
  induction keys with
  | nil =>
    intro _
    apply List.sum_eq_zero
    intro x hx
    rw [List.mem_map] at hx
    obtain ⟨j, _, rfl⟩ := hx
    rfl
  | cons k ks ih =>
    intro hall
    have hfun : (fun i => (bucketOf h (k :: ks) i).length) =
        (fun i => (if h.calculate k = some i then 1 else 0) + (bucketOf h ks i).length) := by
      funext i
      unfold bucketOf
      rw [List.filter_cons]
      by_cases hc : h.calculate k = some i
      · simp [hc]; omega
      · simp [hc]
    obtain ⟨j, hj, hc⟩ := hall k (List.mem_cons_self _ _)
    rw [hfun, sum_map_add, List.length_cons, sum_indicator_eq_one _ is hnd j hj hc,
      ih (fun k' hk' => hall k' (List.mem_cons_of_mem _ hk'))]
    omega

theorem count_bucketOf (h : UniversalHash) (keys : List Nat) (k i : Nat) :
    (bucketOf h keys i).count k = if h.calculate k = some i then keys.count k else 0 := by
  unfold bucketOf
  by_cases hc : h.calculate k = some i
  · rw [if_pos hc, List.count_filter (by simpa using hc)]
  · rw [if_neg hc]
    apply List.count_eq_zero_of_not_mem
    intro hmem
    rw [List.mem_filter] at hmem
    exact hc (by simpa using hmem.2)

theorem secondTableLoop_exact (index : Nat) (elements : List Nat) (size : Nat) :
    ∀ (g : Generator) (s s' : PerfectHashSet) (g' : Generator),
      s.hashes[index]? = some (List.replicate size 0) →
      secondTableLoop index elements size g s = .ok (s', g') →
      ∃ smp table,
        s'.hashes = s.hashes.set index table ∧
        s'.second_universal_hashes =
          s.second_universal_hashes.set index (makeRandomHash smp size) ∧
        s'.inserted = s.inserted ∧
        tryHash (makeRandomHash smp size) elements (List.replicate size false) = some true ∧
        fillTable (makeRandomHash smp size) elements (List.replicate size 0) = some table := by
  intro g
  induction g with
  | nil => intro s s' g' _ h; simp [secondTableLoop] at h
  | cons smp g ih =>
    intro s s' g' hget h
    simp only [secondTableLoop] at h
    split at h
    · simp at h
    · obtain ⟨smp', table, a1, a2, a3, a4, a5⟩ := ih _ s' g' (by simpa using hget) h
      refine ⟨smp', table, by simpa using a1, ?_, by simpa using a3, a4, a5⟩
      rw [a2]
      simp [List.set_set]
    · rename_i htry
      split at h
      · simp at h
      · rename_i table hfill
        simp only [Result.ok.injEq, Prod.mk.injEq] at h
        obtain ⟨h, _⟩ := h
        subst h
        have hD : s.hashes.getD index [] = List.replicate size 0 := by
          rw [List.getD_eq_getElem?_getD, hget]; rfl
        simp only [hD] at hfill
        exact ⟨smp, table, rfl, rfl, rfl, htry, hfill⟩

/-- What a returning `initTable(index)` has built, with the sizes as the code
computes them: `size` is `elements.size() * elements.size()` as a `size_t`,
and `p` is `size` cut to 32 bits. -/
theorem initTable_exact (index : Nat) (g : Generator) (s s' : PerfectHashSet)
    (g' : Generator) (h : initTable index g s = .ok (s', g')) :
    ∃ elements h2 table flags,
      s.hashes[index]? = some elements ∧
      s'.second_universal_hashes[index]? = some h2 ∧
      s'.hashes[index]? = some table ∧ s'.inserted[index]? = some flags ∧
      elements.Nodup ∧
      h2.p = (elements.length * elements.length) % 2 ^ 64 % 2 ^ 32 ∧
      table.length = (elements.length * elements.length) % 2 ^ 64 ∧
      flags = List.replicate ((elements.length * elements.length) % 2 ^ 64) false ∧
      (∀ e ∈ elements, ∃ c, h2.calculate e = some c ∧ c < h2.p ∧ table[c]? = some e) ∧
      elements.Pairwise (fun e e' => h2.calculate e ≠ h2.calculate e') ∧
      (∀ c, c < table.length → (∀ e ∈ elements, h2.calculate e ≠ some c) →
        table[c]? = some 0) := by
  unfold initTable at h
  split at h
  · simp at h
  · rename_i elements hel
    split at h
    · rename_i hidx
      simp only at h
      split at h
      · simp at h
      · rename_i hpair
        split at h
        · rename_i hidx2
          have hnd : elements.Nodup :=
            (hasEqualPair_eq_false_iff elements).mp (by simpa using hpair)
          have hlt : index < s.hashes.length := lt_length_of_getElem? hel
          obtain ⟨smp, table, a1, a2, a3, a4, a5⟩ :=
            secondTableLoop_exact index elements _ g _ s' g' (by simp [hlt]) h
          obtain ⟨_, t2⟩ := tryHash_spec _ _ _ a4
          obtain ⟨f1, f2, _, f4⟩ := fillTable_spec _ _ _ _ a5
          refine ⟨elements, _, table, _, hel, ?_, ?_, ?_, hnd, rfl, by simpa using f1, rfl,
            ?_, t2, ?_⟩
          · rw [a2]
            exact getElem?_set_self_of_lt _ _ _ hidx2
          · rw [a1]
            exact getElem?_set_self_of_lt _ _ _ (by simpa using hlt)
          · rw [a3]
            exact getElem?_set_self_of_lt _ _ _ hidx
          · intro e he
            obtain ⟨c, hc, hst⟩ := f4 t2 e he
            exact ⟨c, hc, calculate_lt hc, hst⟩
          · intro c hc hfree
            rw [f2 c hfree, List.getElem?_replicate, if_pos (by simpa [f1] using hc)]
        · simp at h
    · simp at h

theorem tryHash_complete (h : UniversalHash) :
    ∀ (es : List Nat) (used : List Bool),
      (∀ e ∈ es, ∃ c, h.calculate e = some c ∧ used[c]? = some false) →
      es.Pairwise (fun e e' => h.calculate e ≠ h.calculate e') →
      tryHash h es used = some true := by
  intro es
  induction es with
  | nil => intro used _ _; rfl
  | cons e es ih =>
    intro used hfree hpw
    rw [List.pairwise_cons] at hpw
    obtain ⟨c, hc, hu⟩ := hfree e (List.mem_cons_self _ _)
    simp only [tryHash, hc, hu]
    apply ih _ _ hpw.2
    intro e' he'
    obtain ⟨c', hc', hu'⟩ := hfree e' (List.mem_cons_of_mem _ he')
    refine ⟨c', hc', ?_⟩
    have hne : c ≠ c' := by
      intro hh
      subst hh
      exact hpw.1 e' he' (by rw [hc, hc'])
    rw [getElem?_set_of_ne _ _ hne]
    exact hu'

theorem initTable_returns (index : Nat) (smp : Nat × Nat) (g : Generator)
    (s : PerfectHashSet) (elements : List Nat) (size : Nat)
    (hel : s.hashes[index]? = some elements)
    (hi : index < s.inserted.length) (hi2 : index < s.second_universal_hashes.length)
    (hsize : (elements.length * elements.length) % 2 ^ 64 = size)
    (hnd : elements.Nodup)
    (hp : elements ≠ [] → (makeRandomHash smp size).p ≠ 0)
    (hpw : elements.Pairwise
      (fun e e' => (makeRandomHash smp size).calculate e ≠ (makeRandomHash smp size).calculate e')) :
    ∃ s' table, initTable index (smp :: g) s = .ok (s', g) ∧
      s'.first_universal_hash = s.first_universal_hash ∧
      s'.second_universal_hashes =
        s.second_universal_hashes.set index (makeRandomHash smp size) ∧
      s'.hashes = s.hashes.set index table ∧ table.length = size ∧
      s'.inserted = s.inserted.set index (List.replicate size false) := by
  have hlt : index < s.hashes.length := lt_length_of_getElem? hel
  have hple : (makeRandomHash smp size).p ≤ size := by
    simp only [makeRandomHash]
    exact Nat.mod_le _ _
  have htry : tryHash (makeRandomHash smp size) elements (List.replicate size false)
      = some true := by
    apply tryHash_complete _ _ _ _ hpw
    intro e he
    obtain ⟨c, hc⟩ := calculate_ne_none (hp (List.ne_nil_of_mem he)) e
    refine ⟨c, hc, ?_⟩
    rw [List.getElem?_replicate, if_pos (lt_of_lt_of_le (calculate_lt hc) hple)]
  have hfill : ∃ table, fillTable (makeRandomHash smp size) elements
      (List.replicate size 0) = some table := by
    have := fillTable_ne_none (makeRandomHash smp size) elements (List.replicate size 0)
      (by simpa using hple) hp
    cases hf : fillTable (makeRandomHash smp size) elements (List.replicate size 0) with
    | none => exact absurd hf this
    | some table => exact ⟨table, rfl⟩
  obtain ⟨table, hfill⟩ := hfill
  have hpair : hasEqualPair elements = false := (hasEqualPair_eq_false_iff elements).mpr hnd
  have hD : (s.hashes.set index (List.replicate size 0)).getD index []
      = List.replicate size 0 := by
    rw [List.getD_eq_getElem?_getD, getElem?_set_self_of_lt _ _ _ hlt]
    rfl
  unfold initTable
  rw [hel]
  simp only [hi, hi2, if_true, hpair, Bool.false_eq_true, if_false, hsize, secondTableLoop,
    htry, hD, hfill]
  refine ⟨_, table, rfl, rfl, rfl, ?_, ?_, rfl⟩
  · simp only [List.set_set]
  · rw [(fillTable_spec _ _ _ _ hfill).1, List.length_replicate]

theorem secondTablesLoop_returns :
    ∀ (is : List Nat) (g : Generator) (s : PerfectHashSet), is.Nodup →
      (∀ i ∈ is, i < s.inserted.length ∧ i < s.second_universal_hashes.length ∧
        s.hashes[i]? = some []) →
      is.length ≤ g.length →
      ∃ s' g', secondTablesLoop is g s = .ok (s', g') := by
  intro is
  induction is with
  | nil => intro g s _ _ _; exact ⟨s, g, rfl⟩
  | cons i rest ih =>
    intro g s hnd hall hlen
    rw [List.nodup_cons] at hnd
    cases g with
    | nil => simp at hlen
    | cons smp g =>
      obtain ⟨a1, a2, a3⟩ := hall i (List.mem_cons_self _ _)
      obtain ⟨s1, table, hinit, _, e6, e4, _, e5⟩ := initTable_returns i smp g s [] 0 a3 a1 a2
        (by simp) List.nodup_nil (fun hh => absurd rfl hh) List.Pairwise.nil
      obtain ⟨s', g', hrest⟩ := ih g s1 hnd.2 (fun j hj => by
        obtain ⟨b1, b2, b3⟩ := hall j (List.mem_cons_of_mem _ hj)
        have hne : i ≠ j := by
          intro hh
          subst hh
          exact hnd.1 hj
        refine ⟨by rw [e5, List.length_set]; exact b1, by rw [e6, List.length_set]; exact b2, ?_⟩
        rw [e4, getElem?_set_of_ne _ _ hne]
        exact b3) (by simpa using hlen)
      refine ⟨s', g', ?_⟩
      simp only [secondTablesLoop, hinit]
      exact hrest

/-- A run of `init` in which the first-level hash sends every key to bucket
`0` and the first second-level sample is injective on the keys: the call
returns, and the second-level hash of bucket `0` is the one made from that
sample with `p` the squared bucket size cut to 64 and then 32 bits. -/
theorem init_single_bucket_returns (keys : List Nat) (n : Nat) (smp1 smp2 : Nat × Nat)
    (g : Generator) (s : PerfectHashSet) (size : Nat)
    (hlen : keys.length = n + 1) (hn : n + 1 < 2 ^ 31) (hg : n ≤ g.length)
    (hcalc : ∀ k ∈ keys, (makeRandomHash smp1 (n + 1)).calculate k = some 0)
    (hnd : keys.Nodup)
    (hgood : (keys.length * keys.length) % 2 ^ 64 % 2 ^ 64 % 2 ^ 32 ≤ (3 * (n + 1)) % 2 ^ 32)
    (hsize : (keys.length * keys.length) % 2 ^ 64 = size)
    (hp : (makeRandomHash smp2 size).p ≠ 0)
    (hid : ∀ e ∈ keys, (makeRandomHash smp2 size).calculate e = some e) :
    ∃ s' g' table, init (smp1 :: smp2 :: g) keys s = .ok (s', g') ∧
      s'.first_universal_hash = makeRandomHash smp1 (n + 1) ∧
      s'.second_universal_hashes[0]? = some (makeRandomHash smp2 size) ∧
      s'.hashes[0]? = some table ∧ table.length = size := by
  have hmod : keys.length % 2 ^ 32 = n + 1 := by rw [hlen]; exact Nat.mod_eq_of_lt (by omega)
  have hpw : keys.Pairwise (fun e e' =>
      (makeRandomHash smp2 size).calculate e ≠ (makeRandomHash smp2 size).calculate e') := by
    rw [List.pairwise_iff_forall_sublist]
    intro a b hab
    have ha : a ∈ keys := hab.subset (by simp)
    have hb : b ∈ keys := hab.subset (by simp)
    rw [hid a ha, hid b hb]
    intro hh
    have hab' : a = b := Option.some.inj hh
    subst hab'
    have := hnd.sublist hab
    simp at this
  -- the first level
  have hfirst := firstTableLoop_single_bucket keys smp1 (smp2 :: g)
    { s with
      keys_count := n + 1,
      hashes := List.replicate (n + 1) [],
      second_universal_hashes := List.replicate (n + 1) ⟨0, 0, 0⟩,
      inserted := List.replicate (n + 1) [] } n rfl rfl hcalc hnd hgood
  simp only at hfirst
  -- bucket 0
  obtain ⟨sB, table, hB, e8, e6, e4, b7, e5⟩ := initTable_returns 0 smp2 g
    { s with
      keys_count := n + 1,
      hashes := keys :: List.replicate n [],
      second_universal_hashes := List.replicate (n + 1) ⟨0, 0, 0⟩,
      inserted := List.replicate (n + 1) [],
      first_universal_hash := makeRandomHash smp1 (n + 1) } keys size
    List.getElem?_cons_zero (by simp) (by simp) hsize hnd (fun _ => hp) hpw
  simp only at e4 e5 e6 e8
  -- the other buckets
  have hnd' : (List.map Nat.succ (List.range n)).Nodup :=
    (List.nodup_range n).map Nat.succ_injective
  obtain ⟨s', g', hrest⟩ := secondTablesLoop_returns (List.map Nat.succ (List.range n)) g sB
    hnd' (fun i hi => by
      rw [List.mem_map] at hi
      obtain ⟨j, hj, rfl⟩ := hi
      rw [List.mem_range] at hj
      refine ⟨by rw [e5]; simp; omega, by rw [e6]; simp; omega, ?_⟩
      rw [e4, getElem?_set_of_ne _ _ (Nat.succ_ne_zero j).symm]
      simp [hj]) (by simpa using hg)
  obtain ⟨_, c2, _, _, _, c6, _⟩ := secondTablesLoop_spec _ g sB s' g' hnd' hrest
  have h0 : (0 : Nat) ∉ List.map Nat.succ (List.range n) := by
    intro hh
    rw [List.mem_map] at hh
    obtain ⟨j, _, hj⟩ := hh
    exact Nat.succ_ne_zero j hj
  obtain ⟨d1, _, d3⟩ := c6 0 h0
  refine ⟨s', g', table, ?_, by rw [c2, e8], ?_, ?_, b7⟩
  · unfold init
    rw [if_neg (by omega), hmod]
    simp only
    unfold initFirstTable
    simp only
    rw [hfirst]
    simp only
    unfold initSecondTables
    simp only
    rw [List.range_succ_eq_map]
    simp only [secondTablesLoop, hB]
    exact hrest
  · rw [d3, e6]
    exact getElem?_set_self_of_lt _ _ _ (by simp)
  · rw [d1, e4]
    exact getElem?_set_self_of_lt _ _ _ (by simp)

theorem oversizedKeys_length : oversizedKeys.length = 65537 := by
  simp [oversizedKeys]

theorem oversizedKeys_first :
    ∀ k ∈ oversizedKeys, (makeRandomHash (4294967296, 0) (65536 + 1)).calculate k = some 0 := by
  intro k _
  simp [makeRandomHash, UniversalHash.calculate, modulo]

theorem oversizedKeys_second :
    ∀ e ∈ oversizedKeys, (makeRandomHash (1, 0) 4295098369).calculate e = some e := by
  intro e he
  unfold oversizedKeys at he
  rw [List.mem_range] at he
  have h1 : e % 18446744073709551616 = e := Nat.mod_eq_of_lt (by omega)
  have h2 : e % 4294967311 = e := Nat.mod_eq_of_lt (by omega)
  have h3 : e % 131073 = e := Nat.mod_eq_of_lt (by omega)
  have h4 : e % 4294967296 = e := Nat.mod_eq_of_lt (by omega)
  simp only [makeRandomHash, UniversalHash.calculate, modulo]
  norm_num
  rw [h1, h2, h3, h4]

/-! ## The properties of the specification -/

/-- Claim C1 (code defect shown on a concrete run): after `init([1, 3])` with
in-range samples, the key `0`, which is not in the key set, hashes to an
unoccupied slot that holds the filler `0`; `isPossibleKey(0)` is true, so
`insert(0)` and `erase(0)` return instead of throwing
`ImpossibleKeyException`, and `insert(0)` raises `size()` to `1`. -/
theorem insert_accepts_zero_outside_keys :
    (∀ smp ∈ pairGenerator, inRange smp) ∧ (0 : Nat) ∉ [1, 3] ∧
    init pairGenerator [1, 3] (construct ⟨0, 0, 0⟩ 0) = .ok (pairBuilt, []) ∧
    isPossibleKey pairBuilt 0 = some true ∧
    insert pairBuilt 0 =
      .ok { pairBuilt with
        inserted := [[false, true, false, false], []], inserted_count := 1 } ∧
    (∀ st, insert pairBuilt 0 ≠ .impossibleKeyException st) ∧
    erase pairBuilt 0 = .ok pairBuilt ∧
    (∀ st, erase pairBuilt 0 ≠ .impossibleKeyException st) := by
  have hins : insert pairBuilt 0 =
      .ok { pairBuilt with
        inserted := [[false, true, false, false], []], inserted_count := 1 } := by decide
  have hers : erase pairBuilt 0 = .ok pairBuilt := by decide
  refine ⟨by decide, by decide, by decide, by decide, hins, ?_, hers, ?_⟩
  · intro st h
    rw [hins] at h
    cases h
  · intro st h
    rw [hers] at h
    cases h

/-- What the code does guarantee for keys outside the key set: after a returning
`init(keys)` on a non-empty key list, `insert(k)` and `erase(k)` throw
`ImpossibleKeyException` for every `k` outside `keys` other than `0`, in every
state reached by calls of `insert` and `erase`. -/
theorem impossibleKey_of_not_mem_of_ne_zero (g : Generator) (keys : List Nat)
    (s s0 : PerfectHashSet) (g' : Generator) (hinit : init g keys s = .ok (s0, g'))
    (hne : keys ≠ []) (s1 : PerfectHashSet) (hr : Reached (fun _ => True) s0 s1)
    (k : Nat) (hk : k ∉ keys) (h0 : k ≠ 0) :
    insert s1 k = .impossibleKeyException s1 ∧
    erase s1 k = .impossibleKeyException s1 := by
  have hb := (init_spec g keys s s0 g' hinit).1
  have hp : isPossibleKey s1 k = some false := by
    rw [hr.sameStructure.isPossibleKey]
    exact hb.isPossibleKey_false hne hk h0
  constructor
  · unfold insert; rw [hp]
  · unfold erase; rw [hp]

/-- Claim C2: after a returning `init(keys)`, `isPossibleKey(k)` is true for
every `k` in `keys`: the slot selected by the first-level hash and then by the
second-level hash of that bucket holds `k`, and no other key is located at
that slot. -/
theorem isPossibleKey_of_mem_after_init (g : Generator) (keys : List Nat)
    (s s0 : PerfectHashSet) (g' : Generator) (hinit : init g keys s = .ok (s0, g'))
    (k : Nat) (hk : k ∈ keys) :
    isPossibleKey s0 k = some true ∧
    ∃ i c, Located s0 k i c ∧ ∀ k', Located s0 k' i c → k' = k := by
  have hb := (init_spec g keys s s0 g' hinit).1
  obtain ⟨i, c, hl⟩ := hb.located_of_mem hk
  exact ⟨isPossibleKey_of_located hl, i, c, hl, fun k' hl' => located_inj hl' hl⟩

/-- A run on the keys `[5, 17, 42, 1000]`: the key `17` is found at its slot. -/
theorem isPossibleKey_of_mem_after_init_witness :
    init quadGenerator [5, 17, 42, 1000] (construct ⟨0, 0, 0⟩ 0) = .ok (quadBuilt, []) ∧
    17 ∈ [5, 17, 42, 1000] ∧
    isPossibleKey quadBuilt 17 = some true ∧
    ∃ i c, Located quadBuilt 17 i c ∧ ∀ k', Located quadBuilt k' i c → k' = 17 :=
  ⟨quadBuilt_eq, by decide,
    isPossibleKey_of_mem_after_init quadGenerator [5, 17, 42, 1000] (construct ⟨0, 0, 0⟩ 0)
      quadBuilt [] quadBuilt_eq 17 (by decide)⟩

/-- The keys `5, 11, 5, 17` share a bucket of four in which the two `5` are not
neighbours, so `hasNaiveCollisions` misses them; the pairwise check of
`initTable` for that bucket throws. -/
theorem init_duplicate_run :
    init duplicateGenerator [5, 11, 5, 17, 0, 1] (construct ⟨0, 0, 0⟩ 0)
      = .multipleKeyException (duplicateThrown, []) := by
  decide

/-- Claim C3: when `keys` holds some value at two different positions,
`init(keys)` never returns, whatever the samples: the only outcome that is
neither undefined behaviour nor a loop still running when the samples are
used up is `MultipleKeyException`; with fewer than `65536` keys no run is
undefined, so a run that ends ends with `MultipleKeyException`. -/
theorem init_duplicate_never_returns (g : Generator) (keys : List Nat) (s : PerfectHashSet)
    (hdup : ¬ keys.Nodup) :
    (∀ s' g', init g keys s ≠ .ok (s', g')) ∧
    ((∃ st, init g keys s = .multipleKeyException st) ∨
      init g keys s = .undefinedBehaviour ∨ init g keys s = .samplesExhausted) ∧
    (keys.length < 65536 →
      (∃ st, init g keys s = .multipleKeyException st) ∨
        init g keys s = .samplesExhausted) := by
  have hnok : ∀ s' g', init g keys s ≠ .ok (s', g') := by
    intro s' g' h
    exact hdup (init_spec g keys s s' g' h).1.nodup
  have hsmall := init_defined_of_small g keys s
  refine ⟨hnok, ?_, ?_⟩
  · cases h : init g keys s with
    | ok v => exact absurd h (hnok v.1 v.2)
    | multipleKeyException st => exact Or.inl ⟨st, rfl⟩
    | impossibleKeyException st => exact absurd h (init_no_impossible g keys s st)
    | undefinedBehaviour => exact Or.inr (Or.inl rfl)
    | samplesExhausted => exact Or.inr (Or.inr rfl)
  · intro hlen
    cases h : init g keys s with
    | ok v => exact absurd h (hnok v.1 v.2)
    | multipleKeyException st => exact Or.inl ⟨st, rfl⟩
    | impossibleKeyException st => exact absurd h (init_no_impossible g keys s st)
    | undefinedBehaviour => exact absurd h (hsmall hlen)
    | samplesExhausted => exact Or.inr rfl

/-- A run on the keys `[5, 11, 5, 17, 0, 1]`, which hold `5` twice. -/
theorem init_duplicate_never_returns_witness :
    ¬ [5, 11, 5, 17, 0, 1].Nodup ∧
    (∀ s' g', init duplicateGenerator [5, 11, 5, 17, 0, 1] (construct ⟨0, 0, 0⟩ 0)
      ≠ .ok (s', g')) ∧
    ((∃ st, init duplicateGenerator [5, 11, 5, 17, 0, 1] (construct ⟨0, 0, 0⟩ 0)
        = .multipleKeyException st) ∨
      init duplicateGenerator [5, 11, 5, 17, 0, 1] (construct ⟨0, 0, 0⟩ 0)
        = .undefinedBehaviour ∨
      init duplicateGenerator [5, 11, 5, 17, 0, 1] (construct ⟨0, 0, 0⟩ 0)
        = .samplesExhausted) ∧
    ([5, 11, 5, 17, 0, 1].length < 65536 →
      (∃ st, init duplicateGenerator [5, 11, 5, 17, 0, 1] (construct ⟨0, 0, 0⟩ 0)
        = .multipleKeyException st) ∨
      init duplicateGenerator [5, 11, 5, 17, 0, 1] (construct ⟨0, 0, 0⟩ 0)
        = .samplesExhausted) :=
  ⟨by decide,
    init_duplicate_never_returns duplicateGenerator [5, 11, 5, 17, 0, 1]
      (construct ⟨0, 0, 0⟩ 0) (by decide)⟩

/-- Claim C4: for a duplicate-free `keys`, `init(keys)` never throws
`MultipleKeyException`, whatever the samples: neither `hasNaiveCollisions` in
`initFirstTable` nor the pairwise check of `initTable` reports a duplicate. -/
theorem init_nodup_no_multipleKeyException (g : Generator) (keys : List Nat)
    (s : PerfectHashSet) (hnd : keys.Nodup) :
    ∀ st, init g keys s ≠ .multipleKeyException st :=
  init_no_multiple g keys s hnd

/-- A run on the duplicate-free keys `[5, 17, 42, 1000]`. -/
theorem init_nodup_no_multipleKeyException_witness :
    [5, 17, 42, 1000].Nodup ∧
    ∀ st, init quadGenerator [5, 17, 42, 1000] (construct ⟨0, 0, 0⟩ 0)
      ≠ .multipleKeyException st :=
  ⟨by decide,
    init_nodup_no_multipleKeyException quadGenerator [5, 17, 42, 1000]
      (construct ⟨0, 0, 0⟩ 0) (by decide)⟩

/-- Claim C5: in every state reached after a returning `init(keys)` by calls of
`insert` and `erase`, for every `k` in `keys`, `insert(k)` returns and `has(k)`
is true right afterwards. -/
theorem insert_then_has (g : Generator) (keys : List Nat) (s s0 : PerfectHashSet)
    (g' : Generator) (hinit : init g keys s = .ok (s0, g'))
    (s1 : PerfectHashSet) (hr : Reached (fun _ => True) s0 s1) (k : Nat) (hk : k ∈ keys) :
    ∃ s2, insert s1 k = .ok s2 ∧ has s2 k = some true :=
  insert_ok_after_init (init_spec g keys s s0 g' hinit).1 hr.sameStructure hk

/-- A run of `insert(5)` right after `init([5, 17, 42, 1000])`. -/
theorem insert_then_has_witness :
    ∃ s2, insert quadBuilt 5 = .ok s2 ∧ has s2 5 = some true :=
  insert_then_has quadGenerator [5, 17, 42, 1000] (construct ⟨0, 0, 0⟩ 0) quadBuilt []
    quadBuilt_eq quadBuilt Reached.start 5 (by decide)

/-- Claim C6: in every state reached from a new object by one returning
`init(keys)` and then calls of `insert` and `erase`, for every `k` in `keys`,
`erase(k)` returns, `has(k)` is false right afterwards, and `size()` is one
less than before when `has(k)` was true and unchanged when it was false (it
was one of the two). -/
theorem erase_then_has_false (g : Generator) (keys : List Nat) (h0 : UniversalHash)
    (kc : Nat) (s0 : PerfectHashSet) (g' : Generator)
    (hinit : init g keys (construct h0 kc) = .ok (s0, g'))
    (s1 : PerfectHashSet) (hr : Reached (fun _ => True) s0 s1) (k : Nat) (hk : k ∈ keys) :
    ∃ s2, erase s1 k = .ok s2 ∧ has s2 k = some false ∧
      (has s1 k = some true ∨ has s1 k = some false) ∧
      (has s1 k = some true → size s2 + 1 = size s1) ∧
      (has s1 k = some false → size s2 = size s1) := by
  obtain ⟨hb, hcount⟩ := init_spec g keys (construct h0 kc) s0 g' hinit
  obtain ⟨s2, hers, hhas, hcases⟩ := erase_ok_after_init hb hr.sameStructure hk
  have hc := count_after_init hb hcount hr
  have hlen : (acceptedKeys keys).length < 2 ^ 32 := by
    have := acceptedKeys_length_le keys
    have := hb.1
    omega
  obtain ⟨_, h1, h2⟩ := erase_count (acceptedKeys_nodup hb.nodup) hlen
    (mem_acceptedKeys (Or.inr hk)) hers hc
  exact ⟨s2, hers, hhas, hcases, h1, h2⟩

/-- A run of `erase(5)` after `init([5, 17, 42, 1000])` and `insert(5)`. -/
theorem erase_then_has_false_witness :
    ∃ s2, erase quadWithFive 5 = .ok s2 ∧ has s2 5 = some false ∧
      (has quadWithFive 5 = some true ∨ has quadWithFive 5 = some false) ∧
      (has quadWithFive 5 = some true → size s2 + 1 = size quadWithFive) ∧
      (has quadWithFive 5 = some false → size s2 = size quadWithFive) :=
  erase_then_has_false quadGenerator [5, 17, 42, 1000] ⟨0, 0, 0⟩ 0 quadBuilt []
    quadBuilt_eq quadWithFive
    (Reached.insert Reached.start trivial
      (show insert quadBuilt 5 = .ok quadWithFive from by decide))
    5 (by decide)

/-- Claim C7 (code defect shown on a concrete run): `init` rebuilds the
presence-flag tables with every flag false but does not reset
`inserted_count`. After `init([5])`, `insert(5)` and a second `init([5])` on
the same object, all calls returning, `size()` is `1` while no presence flag
is true. -/
theorem size_stale_after_second_init :
    init [(1, 0), (1, 0)] [5] (construct ⟨0, 0, 0⟩ 0) = .ok (singleBuilt, []) ∧
    insert singleBuilt 5 =
      .ok { singleBuilt with inserted := [[true]], inserted_count := 1 } ∧
    init [(1, 0), (1, 0)] [5]
        { singleBuilt with inserted := [[true]], inserted_count := 1 } =
      .ok ({ singleBuilt with inserted_count := 1 }, []) ∧
    size { singleBuilt with inserted_count := 1 } = 1 ∧
    trueFlags { singleBuilt with inserted_count := 1 } = 0 ∧
    has { singleBuilt with inserted_count := 1 } 5 = some false := by
  refine ⟨by decide, by decide, by decide, by decide, by decide, by decide⟩

/-- When `init` is called once on a new object, `size()` is
the number of presence flags that are true, in every state reached by calls of
`insert` and `erase`. -/
theorem size_eq_trueFlags_single_init (g : Generator) (keys : List Nat) (h0 : UniversalHash)
    (kc : Nat) (s0 : PerfectHashSet) (g' : Generator)
    (hinit : init g keys (construct h0 kc) = .ok (s0, g'))
    (s1 : PerfectHashSet) (hr : Reached (fun _ => True) s0 s1) :
    size s1 = trueFlags s1 := by
  obtain ⟨hb, hcount⟩ := init_spec g keys (construct h0 kc) s0 g' hinit
  have hnd := acceptedKeys_nodup hb.nodup
  have hlen : (acceptedKeys keys).length < 2 ^ 32 := by
    have := acceptedKeys_length_le keys
    have := hb.1
    omega
  unfold size
  induction hr with
  | start =>
    rw [hb.trueFlags_zero]
    exact hcount
  | @insert s s' k hr' _ hins ih =>
    have hc := count_after_init hb hcount hr'
    obtain ⟨i, c, hl, ⟨_, rfl⟩ | ⟨hf, rfl⟩⟩ := insert_cases hins
    · exact ih
    · have hk : k ∈ acceptedKeys keys :=
        mem_acceptedKeys (hb.mem_of_located (hr'.sameStructure.located.mp hl))
      have h1 := (insert_count hnd hlen hk hins hc).2.1 (by rw [has_of_located hl, hf])
      have h2 := trueFlags_setFlag true ((s.inserted_count + 1) % 2 ^ 32) hf
      simp only [Bool.false_eq_true, if_false, if_true] at h2
      rw [h1]
      omega
  | @erase s s' k hr' _ hers ih =>
    have hc := count_after_init hb hcount hr'
    obtain ⟨i, c, hl, ⟨_, rfl⟩ | ⟨hf, rfl⟩⟩ := erase_cases hers
    · exact ih
    · have hk : k ∈ acceptedKeys keys :=
        mem_acceptedKeys (hb.mem_of_located (hr'.sameStructure.located.mp hl))
      have h1 := (erase_count hnd hlen hk hers hc).2.1 (by rw [has_of_located hl, hf])
      have h2 := trueFlags_setFlag false ((s.inserted_count + 2 ^ 32 - 1) % 2 ^ 32) hf
      simp only [Bool.false_eq_true, if_false, if_true] at h2
      omega

/-- Claim C8: after one returning `init(keys)` on a new object, `keys` has no
duplicate, and in every state reached by calls of `insert` and `erase` with
keys of `keys`, `size()` is the number of keys `k` of `keys` with `has(k)`
true; in particular inserting the keys of a duplicate-free list `L` of keys of
`keys` right after `init` gives `size() = |L|`. -/
theorem size_eq_present_keys (g : Generator) (keys : List Nat) (h0 : UniversalHash)
    (kc : Nat) (s0 : PerfectHashSet) (g' : Generator)
    (hinit : init g keys (construct h0 kc) = .ok (s0, g')) :
    keys.Nodup ∧
    (∀ s1, Reached (fun k => k ∈ keys) s0 s1 →
      size s1 = keys.countP (fun k => has s1 k == some true)) ∧
    (∀ L : List Nat, L.Nodup → (∀ k ∈ L, k ∈ keys) →
      ∃ s1, insertAll s0 L = .ok s1 ∧ size s1 = L.length) := by
  obtain ⟨hb, hcount⟩ := init_spec g keys (construct h0 kc) s0 g' hinit
  have hlen : keys.length < 2 ^ 32 := by
    have := hb.1
    omega
  have hzero : s0.inserted_count = presentCount s0 keys := by
    rw [hb.presentCount_zero]
    exact hcount
  refine ⟨hb.nodup, ?_, ?_⟩
  · intro s1 hr
    exact hr.count_eq hb.nodup hlen hzero
  · intro L hnd hsub
    obtain ⟨s1, h1, h2⟩ := insertAll_size hb hzero L s0 Reached.start hnd hsub
      (fun k hk => hb.has_false (hsub k hk))
    refine ⟨s1, h1, ?_⟩
    unfold size
    rw [h2, hcount]
    simp [construct]

/-- The count of present keys on the keys `[5, 17, 42, 1000]`. -/
theorem size_eq_present_keys_witness :
    [5, 17, 42, 1000].Nodup ∧
    (∀ s1, Reached (fun k => k ∈ [5, 17, 42, 1000]) quadBuilt s1 →
      size s1 = [5, 17, 42, 1000].countP (fun k => has s1 k == some true)) ∧
    (∀ L : List Nat, L.Nodup → (∀ k ∈ L, k ∈ [5, 17, 42, 1000]) →
      ∃ s1, insertAll quadBuilt L = .ok s1 ∧ size s1 = L.length) :=
  size_eq_present_keys quadGenerator [5, 17, 42, 1000] ⟨0, 0, 0⟩ 0 quadBuilt []
    quadBuilt_eq

/-- Claim C9 (code defect shown on a concrete run): `isGoodFirstHash` sums the
squared bucket sizes in a `ui32`. For the `65536` distinct keys
`0, 65536, ..., 65535 * 65536` and the in-range sample `(1, 0)` every key goes
to bucket `0`; the sum `65536 ^ 2 = 2 ^ 32` wraps to `0`, the hash is accepted
and `initFirstTable` leaves its loop, although the exact sum exceeds
`3 * 65536`. -/
theorem initFirstTable_accepts_wrapped_sum :
    unbalancedKeys.Nodup ∧ unbalancedKeys.length = 65536 ∧
    (∀ k ∈ unbalancedKeys, k < 2 ^ 32) ∧ inRange (1, 0) ∧
    initFirstTable unbalancedKeys [(1, 0)] unbalancedStart = .ok (unbalancedResult, []) ∧
    isGoodFirstHash unbalancedResult = true ∧
    unbalancedResult.hashes.length = 65536 ∧
    sumSquares unbalancedResult.hashes = 4294967296 ∧
    ¬ (sumSquares unbalancedResult.hashes ≤ 3 * unbalancedKeys.length) := by
  refine ⟨unbalancedKeys_nodup, unbalancedKeys_length, ?_, by decide, unbalanced_run,
    unbalancedResult_good, unbalancedResult_length, unbalancedResult_sumSquares, ?_⟩
  · intro k hk
    unfold unbalancedKeys at hk
    rw [List.mem_map] at hk
    obtain ⟨i, hi, rfl⟩ := hk
    rw [List.mem_range] at hi
    omega
  · rw [unbalancedResult_sumSquares, unbalancedKeys_length]
    norm_num

/-- With fewer than `65536` keys the sum of `isGoodFirstHash` cannot wrap: after a
returning `init(keys)`, the buckets of the accepted first-level hash satisfy
the bound as exact numbers. -/
theorem sumSquares_le_of_small (g : Generator) (keys : List Nat) (s s0 : PerfectHashSet)
    (g' : Generator) (hinit : init g keys s = .ok (s0, g')) (hsmall : keys.length < 65536) :
    sumSquares ((List.range keys.length).map (bucketOf s0.first_universal_hash keys))
      ≤ 3 * keys.length := by
  obtain ⟨⟨_, _, _, _, _, hsum, _⟩, _⟩ := init_spec g keys s s0 g' hinit
  have hlen := sum_bucket_lengths_le s0.first_universal_hash (List.range keys.length)
    (List.nodup_range _) keys
  have hsq := sumSquares_le_sq
    ((List.range keys.length).map (bucketOf s0.first_universal_hash keys))
  rw [List.map_map] at hsq
  have hcomp : (List.length ∘ bucketOf s0.first_universal_hash keys) =
      (fun i => (bucketOf s0.first_universal_hash keys i).length) := rfl
  rw [hcomp] at hsq
  have hbound : sumSquares
      ((List.range keys.length).map (bucketOf s0.first_universal_hash keys)) < 2 ^ 32 := by
    have h1 : (List.map (fun i => (bucketOf s0.first_universal_hash keys i).length)
        (List.range keys.length)).sum * (List.map
          (fun i => (bucketOf s0.first_universal_hash keys i).length)
          (List.range keys.length)).sum ≤ keys.length * keys.length :=
      Nat.mul_le_mul hlen hlen
    have h2 : keys.length * keys.length ≤ 65535 * 65535 :=
      Nat.mul_le_mul (by omega) (by omega)
    omega
  rw [summaryOf_exact _ hbound] at hsum
  have h3 : (3 * keys.length) % 2 ^ 32 = 3 * keys.length := Nat.mod_eq_of_lt (by omega)
  rw [h3] at hsum
  exact hsum

/-- Claim C10: right after a returning `init(keys)` on a new object, `size()`
is `0` and `has(k)` is false for every `k` in `keys`. -/
theorem has_false_after_fresh_init (g : Generator) (keys : List Nat) (h0 : UniversalHash)
    (kc : Nat) (s0 : PerfectHashSet) (g' : Generator)
    (hinit : init g keys (construct h0 kc) = .ok (s0, g')) :
    size s0 = 0 ∧ ∀ k ∈ keys, has s0 k = some false := by
  obtain ⟨hb, hcount⟩ := init_spec g keys (construct h0 kc) s0 g' hinit
  exact ⟨hcount, fun k hk => hb.has_false hk⟩

/-- A run on the keys `[1, 3]`: nothing is present right after `init`. -/
theorem has_false_after_fresh_init_witness :
    size pairBuilt = 0 ∧ ∀ k ∈ [1, 3], has pairBuilt k = some false :=
  has_false_after_fresh_init pairGenerator [1, 3] ⟨0, 0, 0⟩ 0 pairBuilt [] pairBuilt_eq

/-- Claim C11: in every state reached from a new object by one returning
`init(keys)` and then calls of `insert` and `erase`, for every `k` in `keys`,
`insert(k)` returns, a second `insert(k)` returns the very same object, and
`size()` after the second call is one more than before the first call when
`has(k)` was false and the same when it was true. -/
theorem insert_idempotent (g : Generator) (keys : List Nat) (h0 : UniversalHash)
    (kc : Nat) (s0 : PerfectHashSet) (g' : Generator)
    (hinit : init g keys (construct h0 kc) = .ok (s0, g'))
    (s1 : PerfectHashSet) (hr : Reached (fun _ => True) s0 s1) (k : Nat) (hk : k ∈ keys) :
    ∃ s2, insert s1 k = .ok s2 ∧ insert s2 k = .ok s2 ∧
      (has s1 k = some false → size s2 = size s1 + 1) ∧
      (has s1 k = some true → size s2 = size s1) := by
  obtain ⟨hb, hcount⟩ := init_spec g keys (construct h0 kc) s0 g' hinit
  obtain ⟨s2, hins, _⟩ := insert_ok_after_init hb hr.sameStructure hk
  have hc := count_after_init hb hcount hr
  have hlen : (acceptedKeys keys).length < 2 ^ 32 := by
    have := acceptedKeys_length_le keys
    have := hb.1
    omega
  obtain ⟨_, h1, h2⟩ := insert_count (acceptedKeys_nodup hb.nodup) hlen
    (mem_acceptedKeys (Or.inr hk)) hins hc
  exact ⟨s2, hins, insert_again hins, h1, h2⟩

/-- A run of `insert(17)` twice right after `init([5, 17, 42, 1000])`. -/
theorem insert_idempotent_witness :
    ∃ s2, insert quadBuilt 17 = .ok s2 ∧ insert s2 17 = .ok s2 ∧
      (has quadBuilt 17 = some false → size s2 = size quadBuilt + 1) ∧
      (has quadBuilt 17 = some true → size s2 = size quadBuilt) :=
  insert_idempotent quadGenerator [5, 17, 42, 1000] ⟨0, 0, 0⟩ 0 quadBuilt []
    quadBuilt_eq quadBuilt Reached.start 17 (by decide)

/-- Claim C12: when `insert(k)` or `erase(k)` throws `ImpossibleKeyException`,
which it does exactly when `isPossibleKey(k)` is false, the object at the
`throw` is the object before the call: presence flags, `inserted_count`, slot
tables and hash parameters are the same. -/
theorem impossibleKey_leaves_object (s : PerfectHashSet) (k : Nat) (st : PerfectHashSet)
    (h : insert s k = .impossibleKeyException st ∨ erase s k = .impossibleKeyException st) :
    st = s ∧ isPossibleKey s k = some false ∧
    st.inserted = s.inserted ∧ size st = size s ∧ st.hashes = s.hashes ∧
    st.first_universal_hash = s.first_universal_hash ∧
    st.second_universal_hashes = s.second_universal_hashes ∧
    st.keys_count = s.keys_count := by
  have key : st = s ∧ isPossibleKey s k = some false := by
    rcases h with h | h
    · unfold insert at h
      split at h
      · simp at h
      · rename_i hp
        simp only [Result.impossibleKeyException.injEq] at h
        exact ⟨h.symm, hp⟩
      · split at h
        · simp at h
        · split at h
          · simp at h
          · split at h
            · simp at h
            · split at h <;> simp at h
    · unfold erase at h
      split at h
      · simp at h
      · rename_i hp
        simp only [Result.impossibleKeyException.injEq] at h
        exact ⟨h.symm, hp⟩
      · split at h
        · simp at h
        · split at h
          · simp at h
          · split at h
            · simp at h
            · split at h <;> simp at h
  obtain ⟨rfl, hp⟩ := key
  exact ⟨rfl, hp, rfl, rfl, rfl, rfl, rfl, rfl⟩

/-- A run of `insert(999)` after `init([5, 17, 42, 1000])` and `insert(5)`:
the call throws and `size()` is still `1`. -/
theorem impossibleKey_leaves_object_witness :
    insert quadWithFive 999 = .impossibleKeyException quadWithFive ∧
    (quadWithFive = quadWithFive ∧ isPossibleKey quadWithFive 999 = some false ∧
      quadWithFive.inserted = quadWithFive.inserted ∧ size quadWithFive = size quadWithFive ∧
      quadWithFive.hashes = quadWithFive.hashes ∧
      quadWithFive.first_universal_hash = quadWithFive.first_universal_hash ∧
      quadWithFive.second_universal_hashes = quadWithFive.second_universal_hashes ∧
      quadWithFive.keys_count = quadWithFive.keys_count) :=
  ⟨by decide, impossibleKey_leaves_object quadWithFive 999 quadWithFive (Or.inl (by decide))⟩

/-- Claim C13 (code defect shown on a concrete run): `init` of the empty key
list returns with `first_universal_hash.p = 0`; afterwards `isPossibleKey(7)`
and `has(7)` evaluate `calculate(7)`, which takes a remainder modulo `0`: the
calls are undefined and return no boolean. -/
theorem isPossibleKey_undefined_after_empty_init :
    inRange (1, 0) ∧
    init [(1, 0)] [] (construct ⟨0, 0, 0⟩ 0) = .ok (emptyBuilt, []) ∧
    emptyBuilt.first_universal_hash.p = 0 ∧
    emptyBuilt.first_universal_hash.calculate 7 = none ∧
    isPossibleKey emptyBuilt 7 = none ∧ has emptyBuilt 7 = none := by
  refine ⟨by decide, by decide, by decide, by decide, by decide, by decide⟩

/-- After a returning `init(keys)` on a non-empty key list, in every state
reached by calls of `insert` and `erase`, `isPossibleKey` and `has` return a
boolean for every key: no index is out of range and no remainder is taken
modulo `0`. -/
theorem queries_defined_of_nonempty (g : Generator) (keys : List Nat) (s s0 : PerfectHashSet)
    (g' : Generator) (hinit : init g keys s = .ok (s0, g')) (hne : keys ≠ [])
    (s1 : PerfectHashSet) (hr : Reached (fun _ => True) s0 s1) (k : Nat) :
    (∃ b, isPossibleKey s1 k = some b) ∧ ∃ b, has s1 k = some b :=
  has_defined_after_init (init_spec g keys s s0 g' hinit).1 hne hr.sameStructure k

/-- Claim C14: a returning `insert(k)` or `erase(k)` leaves the first-level
hash, every second-level hash, `keys_count` and every slot table as they
were, so `isPossibleKey(j)` is the same for every key `j`. -/
theorem insert_erase_frame (s : PerfectHashSet) (k : Nat) (s' : PerfectHashSet)
    (h : insert s k = .ok s' ∨ erase s k = .ok s') :
    s'.first_universal_hash = s.first_universal_hash ∧
    s'.second_universal_hashes = s.second_universal_hashes ∧
    s'.keys_count = s.keys_count ∧ s'.hashes = s.hashes ∧
    ∀ j, isPossibleKey s' j = isPossibleKey s j := by
  have hs : SameStructure s s' := by
    rcases h with h | h
    · exact insert_sameStructure h
    · exact erase_sameStructure h
  exact ⟨hs.1, hs.2.1, hs.2.2.1, hs.2.2.2.1, fun j => hs.isPossibleKey j⟩

/-- A run of `insert(5)` right after `init([5, 17, 42, 1000])`. -/
theorem insert_erase_frame_witness :
    insert quadBuilt 5 = .ok quadWithFive ∧
    (quadWithFive.first_universal_hash = quadBuilt.first_universal_hash ∧
      quadWithFive.second_universal_hashes = quadBuilt.second_universal_hashes ∧
      quadWithFive.keys_count = quadBuilt.keys_count ∧
      quadWithFive.hashes = quadBuilt.hashes ∧
      ∀ j, isPossibleKey quadWithFive j = isPossibleKey quadBuilt j) :=
  ⟨by decide, insert_erase_frame quadBuilt 5 quadWithFive (Or.inl (by decide))⟩

/-- Claim C15 (code defect shown on a concrete run): for the keys
`[5, 11, 5, 17, 0, 1]` and the sample `(1, 0)` bucket `5` is `[5, 11, 5, 17]`,
with `5` at the positions `0` and `2`; the bucket has four keys, so
`hasNaiveCollisions` compares neighbours only and returns false, and
`initFirstTable` leaves its loop without throwing. -/
theorem hasNaiveCollisions_misses_distant_pair :
    inRange (1, 0) ∧
    initFirstTable [5, 11, 5, 17, 0, 1] [(1, 0)] duplicateStart = .ok (duplicateBuckets, []) ∧
    duplicateBuckets.hashes[5]? = some [5, 11, 5, 17] ∧
    hasRepeatedValue duplicateBuckets ∧
    hasNaiveCollisions duplicateBuckets = false ∧
    ¬ (hasNaiveCollisions duplicateBuckets = true ↔ hasRepeatedValue duplicateBuckets) := by
  have hrep : hasRepeatedValue duplicateBuckets :=
    ⟨5, by decide, 0, 2, by decide, 5, by decide, by decide⟩
  have hfalse : hasNaiveCollisions duplicateBuckets = false := by decide
  refine ⟨by decide, by decide, by decide, hrep, hfalse, ?_⟩
  intro hiff
  have := hiff.mpr hrep
  rw [hfalse] at this
  cases this

/-- What `hasNaiveCollisions` does guarantee: when it returns true some bucket
holds a value twice, and when no bucket has more than three keys it returns
true as soon as some bucket holds a value twice. -/
theorem hasNaiveCollisions_sound (s : PerfectHashSet) :
    (hasNaiveCollisions s = true → hasRepeatedValue s) ∧
    ((∀ i, i < s.keys_count → (s.hashes.getD i []).length ≤ 3) →
      hasRepeatedValue s → hasNaiveCollisions s = true) := by
  constructor
  · intro h
    unfold hasNaiveCollisions at h
    rw [List.any_eq_true] at h
    obtain ⟨i, hi, hc⟩ := h
    rw [List.mem_range] at hi
    obtain ⟨j, k, hjk, v, hj, hk⟩ := repeated_of_not_nodup (not_nodup_of_bucketCollision hc)
    exact ⟨i, hi, j, k, hjk, v, hj, hk⟩
  · intro hsmall ⟨i, hi, j, k, hjk, v, hj, hk⟩
    unfold hasNaiveCollisions
    rw [List.any_eq_true]
    refine ⟨i, List.mem_range.mpr hi, ?_⟩
    have hlen := hsmall i hi
    generalize s.hashes.getD i [] = b at hj hk hlen
    have hk' := lt_length_of_getElem? hk
    match b, hlen with
    | [], _ => simp at hk'
    | [x], _ =>
      simp only [List.length_singleton] at hk'
      omega
    | [x, y], _ =>
      have h0 : j = 0 := by simp only [List.length_cons, List.length_nil] at hk'; omega
      have h1 : k = 1 := by simp only [List.length_cons, List.length_nil] at hk'; omega
      subst h0 h1
      simp only [List.getElem?_cons_zero, List.getElem?_cons_succ, Option.some.injEq] at hj hk
      subst hj
      simp [bucketCollision, adjacentEqual, hk]
    | [x, y, z], _ =>
      simp only [List.length_cons, List.length_nil] at hk'
      have hcases : (j = 0 ∧ k = 1) ∨ (j = 0 ∧ k = 2) ∨ (j = 1 ∧ k = 2) := by omega
      rcases hcases with ⟨rfl, rfl⟩ | ⟨rfl, rfl⟩ | ⟨rfl, rfl⟩ <;>
        simp only [List.getElem?_cons_zero, List.getElem?_cons_succ, Option.some.injEq]
          at hj hk <;>
        subst hj <;>
        simp [bucketCollision, hk]
    | _ :: _ :: _ :: _ :: _, hlen =>
      simp only [List.length_cons] at hlen
      omega

/-- Claim C16 (code defect shown on a concrete run): `initTable` passes
`elements.size() * elements.size()` to the `ui32` parameter of
`makeRandomHash`. For the `65537` keys `0, ..., 65536`, all sent to bucket `0`,
`init` returns with a slot table of `65537 ^ 2 = 4295098369` slots for that
bucket while the accepted second-level hash has `p = 131073`, the square cut to
32 bits, not `m ^ 2`. -/
theorem initTable_truncates_modulus :
    oversizedKeys.Nodup ∧ oversizedKeys.length = 65537 ∧
    (∀ k ∈ oversizedKeys, k < 2 ^ 32) ∧ (∀ smp ∈ oversizedGenerator, inRange smp) ∧
    ∃ s' g' table,
      init oversizedGenerator oversizedKeys (construct ⟨0, 0, 0⟩ 0) = .ok (s', g') ∧
      (∀ k ∈ oversizedKeys, s'.first_universal_hash.calculate k = some 0) ∧
      s'.second_universal_hashes[0]? = some ⟨1, 0, 131073⟩ ∧
      s'.hashes[0]? = some table ∧ table.length = 4295098369 ∧
      (131073 : Nat) ≠ oversizedKeys.length ^ 2 := by
  refine ⟨List.nodup_range _, oversizedKeys_length, ?_, ?_, ?_⟩
  · intro k hk
    unfold oversizedKeys at hk
    rw [List.mem_range] at hk
    omega
  · intro smp hsmp
    unfold oversizedGenerator at hsmp
    rw [List.mem_cons, List.mem_cons] at hsmp
    rcases hsmp with rfl | rfl | hsmp
    · decide
    · decide
    · rw [List.eq_of_mem_replicate hsmp]
      decide
  · obtain ⟨s', g', table, h1, h2, h3, h4, h5⟩ :=
      init_single_bucket_returns oversizedKeys 65536 (4294967296, 0) (1, 0)
        (List.replicate 65536 (1, 0)) (construct ⟨0, 0, 0⟩ 0) 4295098369
        oversizedKeys_length (by norm_num) (by rw [List.length_replicate])
        oversizedKeys_first (List.nodup_range _)
        (by rw [oversizedKeys_length]; norm_num)
        (by rw [oversizedKeys_length]; norm_num)
        (by simp [makeRandomHash])
        oversizedKeys_second
    refine ⟨s', g', table, h1, ?_, ?_, h4, h5, ?_⟩
    · intro k hk
      rw [h2]
      exact oversizedKeys_first k hk
    · rw [h3]
      rfl
    · rw [oversizedKeys_length]
      norm_num

/-- For a bucket of fewer than `65536` keys a returning `initTable(index)` has
built what the specification describes: `p = m ^ 2`, distinct slots below
`m ^ 2` for the keys, a slot table of length `m ^ 2` with each key at its slot
and `0` elsewhere, and `m ^ 2` presence flags, all false. -/
theorem initTable_small_bucket (index : Nat) (g : Generator) (s s' : PerfectHashSet)
    (g' : Generator) (h : initTable index g s = .ok (s', g'))
    (hsmall : ∀ b, s.hashes[index]? = some b → b.length < 65536) :
    ∃ elements h2 table flags,
      s.hashes[index]? = some elements ∧
      s'.second_universal_hashes[index]? = some h2 ∧
      s'.hashes[index]? = some table ∧ s'.inserted[index]? = some flags ∧
      h2.p = elements.length ^ 2 ∧
      table.length = elements.length ^ 2 ∧
      flags = List.replicate (elements.length ^ 2) false ∧
      (∀ e ∈ elements, ∃ c, h2.calculate e = some c ∧ c < elements.length ^ 2 ∧
        table[c]? = some e) ∧
      elements.Pairwise (fun e e' => h2.calculate e ≠ h2.calculate e') ∧
      (∀ c, c < elements.length ^ 2 → (∀ e ∈ elements, h2.calculate e ≠ some c) →
        table[c]? = some 0) := by
  obtain ⟨elements, h2, table, flags, a1, a2, a3, a4, _, a6, a7, a8, a9, a10, a11⟩ :=
    initTable_exact index g s s' g' h
  have hm := hsmall elements a1
  have hsq : elements.length * elements.length < 65536 * 65536 := by
    rcases Nat.eq_zero_or_pos elements.length with h0 | hpos
    · rw [h0]; norm_num
    · exact Nat.mul_lt_mul'' hm hm
  have e1 : (elements.length * elements.length) % 2 ^ 64 = elements.length ^ 2 := by
    rw [sq]
    exact Nat.mod_eq_of_lt (by omega)
  have e2 : (elements.length * elements.length) % 2 ^ 64 % 2 ^ 32 = elements.length ^ 2 := by
    rw [e1, sq]
    exact Nat.mod_eq_of_lt (by omega)
  rw [e2] at a6
  rw [e1] at a7 a8
  refine ⟨elements, h2, table, flags, a1, a2, a3, a4, a6, a7, a8, ?_, a10, ?_⟩
  · intro e he
    obtain ⟨c, hc, hlt, hst⟩ := a9 e he
    exact ⟨c, hc, by rw [← a6]; exact hlt, hst⟩
  · intro c hc hfree
    exact a11 c (by rw [a7]; exact hc) hfree

/-- Claim C17 (code defect shown on a concrete sample): `4294967296` lies in
the range `[1, modulo - 1]` of `all_ui_without_0`; stored in the `ui32` field
it becomes `0`, so `makeRandomHash` returns a hash whose multiplier is `0` and
differs from the sampled value. -/
theorem makeRandomHash_zero_multiplier :
    inRange (4294967296, 0) ∧
    (makeRandomHash (4294967296, 0) 4).a = 0 ∧
    (makeRandomHash (4294967296, 0) 4).a ≠ 4294967296 ∧
    (∀ x, (makeRandomHash (4294967296, 0) 4).calculate x = some 0) := by
  refine ⟨by decide, by decide, by decide, ?_⟩
  intro x
  simp [makeRandomHash, UniversalHash.calculate, modulo]

/-- What `makeRandomHash` does guarantee: a sample below `2 ^ 32` is stored as
it is, so the multiplier is then the sampled value and not `0`; in every case
the stored fields are the samples modulo `2 ^ 32` and `p` is the argument
modulo `2 ^ 32`. -/
theorem makeRandomHash_fields (smp : Nat × Nat) (real_modulo : Nat) :
    (makeRandomHash smp real_modulo).a = smp.1 % 2 ^ 32 ∧
    (makeRandomHash smp real_modulo).b = smp.2 % 2 ^ 32 ∧
    (makeRandomHash smp real_modulo).p = real_modulo % 2 ^ 32 ∧
    (inRange smp → smp.1 < 2 ^ 32 →
      (makeRandomHash smp real_modulo).a = smp.1 ∧ (makeRandomHash smp real_modulo).a ≠ 0) := by
  refine ⟨rfl, rfl, rfl, ?_⟩
  intro hr hlt
  have h1 : smp.1 % 2 ^ 32 = smp.1 := Nat.mod_eq_of_lt hlt
  have h2 : 1 ≤ smp.1 := hr.1
  simp only [makeRandomHash, h1]
  exact ⟨trivial, by omega⟩

/-- Claim C18: for `ui32` values `a`, `b`, `x` and `p` with `p ≥ 1`,
`calculate(x)` is the exact value `((a * x + b) mod 4294967311) mod p`: the sum
`a * x + b` is below `2 ^ 64`, and the result is below `p`. -/
theorem calculate_exact (a b p x : Nat) (ha : a < 2 ^ 32) (hb : b < 2 ^ 32)
    (hp : p < 2 ^ 32) (hx : x < 2 ^ 32) (hp1 : 1 ≤ p) :
    (UniversalHash.mk a b p).calculate x = some ((a * x + b) % 4294967311 % p) ∧
    a * x + b < 2 ^ 64 ∧ (a * x + b) % 4294967311 % p < p := by
  have hmul : a * x ≤ (2 ^ 32 - 1) * (2 ^ 32 - 1) :=
    Nat.mul_le_mul (by omega) (by omega)
  have hsum : a * x + b < 2 ^ 64 := by
    have : (2 ^ 32 - 1) * (2 ^ 32 - 1) + 2 ^ 32 ≤ 2 ^ 64 := by norm_num
    omega
  have hlt : (a * x + b) % 4294967311 % p < p := Nat.mod_lt _ (by omega)
  refine ⟨?_, hsum, hlt⟩
  unfold UniversalHash.calculate
  have hp0 : p ≠ 0 := by omega
  simp only [hp0, if_false, modulo]
  rw [Nat.mod_eq_of_lt hsum, Nat.mod_eq_of_lt (lt_trans hlt hp)]

/-- The largest `ui32` values: the sum `a * x + b` is `2 ^ 64 - 2 ^ 32`. -/
theorem calculate_exact_witness :
    (UniversalHash.mk 4294967295 4294967295 4294967295).calculate 4294967295
      = some ((4294967295 * 4294967295 + 4294967295) % 4294967311 % 4294967295) ∧
    4294967295 * 4294967295 + 4294967295 < 2 ^ 64 ∧
    (4294967295 * 4294967295 + 4294967295) % 4294967311 % 4294967295 < 4294967295 :=
  calculate_exact 4294967295 4294967295 4294967295 4294967295 (by decide) (by decide)
    (by decide) (by decide) (by decide)

/-- Claim C19: when `initFirstTable` leaves its loop for `keys` of length `n`,
called as `init` calls it, the buckets are the partition of `keys` by the
accepted first-level hash: bucket `i` is the list of the keys sent to `i`, in
input order; every key is sent to one bucket below `n`; a value occurs in the
bucket it is sent to as often as in `keys` and in no other bucket; the bucket
sizes sum to `n`. -/
theorem buckets_partition (keys : List Nat) (g : Generator) (s s' : PerfectHashSet)
    (g' : Generator) (hkc : s.keys_count = keys.length)
    (hlen : s.hashes.length = keys.length) (hsmall : keys.length < 2 ^ 32)
    (h : initFirstTable keys g s = .ok (s', g')) :
    s'.hashes.length = keys.length ∧
    (∀ i, i < keys.length → s'.hashes[i]? =
      some (keys.filter (fun k => decide (s'.first_universal_hash.calculate k = some i)))) ∧
    (∀ k ∈ keys, ∃ i, i < keys.length ∧ s'.first_universal_hash.calculate k = some i ∧
      k ∈ s'.hashes.getD i []) ∧
    (∀ k i, i < keys.length → (s'.hashes.getD i []).count k =
      if s'.first_universal_hash.calculate k = some i then keys.count k else 0) ∧
    (s'.hashes.map List.length).sum = keys.length := by
  unfold initFirstTable at h
  obtain ⟨_, _, _, _, a5, a6, a7, _, _⟩ :=
    firstTableLoop_spec keys g _ s' g' (by simp only; rw [hlen, hkc]) h
  simp only at a5 a6 a7
  rw [hkc] at a5 a6 a7
  rw [Nat.mod_eq_of_lt hsmall] at a5
  have hget : ∀ i, i < keys.length →
      s'.hashes.getD i [] = bucketOf s'.first_universal_hash keys i := by
    intro i hi
    rw [List.getD_eq_getElem?_getD, a7 i hi]
    rfl
  have hsent : ∀ k ∈ keys, ∃ i, i < keys.length ∧
      s'.first_universal_hash.calculate k = some i := by
    intro k hk
    have hpos : s'.first_universal_hash.p ≠ 0 := by
      rw [a5]
      exact fun hh => (List.ne_nil_of_mem hk) (List.length_eq_zero.mp hh)
    obtain ⟨i, hi⟩ := calculate_ne_none hpos k
    exact ⟨i, by rw [← a5]; exact calculate_lt hi, hi⟩
  have hs : s'.hashes = (List.range keys.length).map
      (bucketOf s'.first_universal_hash keys) := by
    apply List.ext_getElem?
    intro i
    by_cases hi : i < keys.length
    · rw [a7 i hi]; simp [hi]
    · rw [List.getElem?_eq_none (by omega), List.getElem?_eq_none (by simp; omega)]
  refine ⟨a6, a7, ?_, ?_, ?_⟩
  · intro k hk
    obtain ⟨i, hi, hc⟩ := hsent k hk
    exact ⟨i, hi, hc, by rw [hget i hi]; exact mem_bucketOf hk hc⟩
  · intro k i hi
    rw [hget i hi]
    exact count_bucketOf _ keys k i
  · rw [hs, List.map_map]
    exact sum_bucket_lengths_eq _ _ (List.nodup_range _) keys (fun k hk => by
      obtain ⟨i, hi, hc⟩ := hsent k hk
      exact ⟨i, List.mem_range.mpr hi, hc⟩)

/-- The first-level build on the keys `[5, 11, 5, 17, 0, 1]` with the sample
`(1, 0)`. -/
theorem buckets_partition_witness :
    duplicateBuckets.hashes.length = [5, 11, 5, 17, 0, 1].length ∧
    (∀ i, i < [5, 11, 5, 17, 0, 1].length → duplicateBuckets.hashes[i]? =
      some ([5, 11, 5, 17, 0, 1].filter
        (fun k => decide (duplicateBuckets.first_universal_hash.calculate k = some i)))) ∧
    (∀ k ∈ [5, 11, 5, 17, 0, 1], ∃ i, i < [5, 11, 5, 17, 0, 1].length ∧
      duplicateBuckets.first_universal_hash.calculate k = some i ∧
      k ∈ duplicateBuckets.hashes.getD i []) ∧
    (∀ k i, i < [5, 11, 5, 17, 0, 1].length → (duplicateBuckets.hashes.getD i []).count k =
      if duplicateBuckets.first_universal_hash.calculate k = some i
      then [5, 11, 5, 17, 0, 1].count k else 0) ∧
    (duplicateBuckets.hashes.map List.length).sum = [5, 11, 5, 17, 0, 1].length :=
  buckets_partition [5, 11, 5, 17, 0, 1] [(1, 0)] duplicateStart duplicateBuckets []
    (by decide) (by decide) (by decide) (by decide)

/-- Claim C20: a returning `insert(k)` or `erase(k)` leaves `has(j)` as it was
for every key `j` other than `k`, in every state of the object and whether or
not `j` or `k` is among the keys given to `init`. -/
theorem has_other_unchanged (s : PerfectHashSet) (k : Nat) (s' : PerfectHashSet) (j : Nat)
    (h : insert s k = .ok s' ∨ erase s k = .ok s') (hj : j ≠ k) :
    has s' j = has s j := by
  rcases h with h | h
  · exact has_insert_other h hj
  · exact has_erase_other h hj

/-- A run of `erase(5)` after `init([5, 17, 42, 1000])` and `insert(5)`: the
answer for the key `17` is the same before and after. -/
theorem has_other_unchanged_witness :
    erase quadWithFive 5 = .ok quadBuilt ∧ (17 : Nat) ≠ 5 ∧
    has quadBuilt 17 = has quadWithFive 17 :=
  ⟨by decide, by decide,
    has_other_unchanged quadWithFive 5 quadBuilt 17 (Or.inr (by decide)) (by decide)⟩

end PerfectHashSet
